import Mathlib

/-!
Nucleotide codecs: `dna.c`, `kmer.c`, `qkmer.c`.

A shallow embedding of the three PostgreSQL types of the repository.

* A C string is a `List Nat` of its bytes (the terminating NUL excluded), so a
  text never contains the byte `0`; `strlen` is the length of the list.
* Machine integers are `Nat`/`Int` with explicit wrap-around: `uint64` values
  are reduced modulo `2 ^ 64`, conversions to `int32`, `int16`, `int` and
  `size_t` are the functions `toInt32`, `toInt16`, `toSize`.  Signed arithmetic
  wraps (PostgreSQL is compiled with `-fwrapv`).
* `ereport(ERROR, ...)` does not return: a function that may raise returns
  `Except PgError _`, one constructor of `PgError` per message.
* `palloc`/`palloc0` raise when the requested size exceeds `MaxAllocSize`
  (`0x3fffffff`) and succeed otherwise; the allocations of a constant size
  (`sizeof(Kmer)`, `sizeof(QKmer)`) and of `kmer->length + 1` bytes never exceed
  it and are left out.  A read or write outside a buffer and a shift by a
  count C leaves undefined are the outcome `PgError.fault`.
-/

namespace NucleotideCodec

/-! ## Errors -/

instance instDecidableEqExcept {ε α : Type} [DecidableEq ε] [DecidableEq α] :
    DecidableEq (Except ε α)
  | .ok a, .ok b => if h : a = b then isTrue (by rw [h]) else isFalse (by simpa using h)
  | .error a, .error b => if h : a = b then isTrue (by rw [h]) else isFalse (by simpa using h)
  | .ok _, .error _ => isFalse (by simp)
  | .error _, .ok _ => isFalse (by simp)

/-- One constructor per `ereport(ERROR, ...)` of the three files, with the
values the message prints, followed by the errors of the PostgreSQL message
buffer routines (`pqformat.c`, `stringinfo.c`) and the out-of-buffer read. -/
inductive PgError where
  /-- From dna.c:66, "Invalid nucleotide '%c' at position %zu". -/
  | dnaInvalidNucleotide (c : Nat) (position : Nat)
  /-- From dna.c:103, "Invalid nucleotide code '%d' at position %zu". -/
  | dnaInvalidCode (code : Nat) (position : Nat)
  /-- From kmer.c:54, "Invalid nucleotide: '%c'.". -/
  | kmerInvalidNucleotide (c : Nat)
  /-- From kmer.c:98 and kmer.c:171, "The length of the kmer must be between 1 and 32 nucleotides.". -/
  | kmerLength
  /-- From kmer.c:131, "Invalid length for the kmer.". -/
  | kmerRecvLength
  /-- From qkmer.c:45, "Invalid nucleotide in qkmer: %c". -/
  | qkmerInvalidNucleotide (c : Nat)
  /-- From qkmer.c:70, "Invalid bit pattern in qkmer: %d". -/
  | qkmerInvalidBits (bits : Nat)
  /-- From qkmer.c:86 and qkmer.c:127, "The length of qkmer must be between 1 and 32 nucleotides". -/
  | qkmerLength
  /-- From pqformat.c, "insufficient data left in message". -/
  | insufficientData
  /-- From stringinfo.c, "invalid string enlargement request size: %d". -/
  | invalidEnlargement (needed : Int)
  /-- From mcxt.c, "invalid memory alloc request size %zu". -/
  | invalidAllocRequest (size : Nat)
  /-- A read outside an allocated buffer (undefined behaviour in C). -/
  | fault
  deriving DecidableEq

/-- The error kinds of the specification. -/
inductive ErrorKind where
  | InvalidSymbol
  | LengthOutOfRange
  | TruncatedInput
  | CorruptData
  deriving DecidableEq

/-- The specification's kind of each error the code raises (`none` for the
outcomes the specification has no name for). -/
def PgError.kind : PgError → Option ErrorKind
  | .dnaInvalidNucleotide _ _ => some .InvalidSymbol
  | .dnaInvalidCode _ _ => some .CorruptData
  | .kmerInvalidNucleotide _ => some .InvalidSymbol
  | .kmerLength => some .LengthOutOfRange
  | .kmerRecvLength => some .LengthOutOfRange
  | .qkmerInvalidNucleotide _ => some .InvalidSymbol
  | .qkmerInvalidBits _ => some .CorruptData
  | .qkmerLength => some .LengthOutOfRange
  | .insufficientData => some .TruncatedInput
  | .invalidEnlargement _ => none
  | .invalidAllocRequest _ => none
  | .fault => none

/-- The position an error message prints, when it prints one. -/
def PgError.position : PgError → Option Nat
  | .dnaInvalidNucleotide _ p => some p
  | .dnaInvalidCode _ p => some p
  | _ => none

/-- The character an invalid-symbol message prints. -/
def PgError.character : PgError → Option Nat
  | .dnaInvalidNucleotide c _ => some c
  | .kmerInvalidNucleotide c => some c
  | .qkmerInvalidNucleotide c => some c
  | _ => none

/-! ## Machine integers and characters -/

/-- Conversion to `int32` (two's complement wrap-around). -/
def toInt32 (n : Int) : Int := (2 ^ 31 + n) % 2 ^ 32 - 2 ^ 31

/-- Conversion to `int16` (two's complement wrap-around). -/
def toInt16 (n : Int) : Int := (2 ^ 15 + n) % 2 ^ 16 - 2 ^ 15

/-- Conversion to `size_t` (64 bits, unsigned). -/
def toSize (n : Int) : Nat := (n % 2 ^ 64).toNat

/-- The C library's `toupper` in the "C" locale, on a byte. -/
def toupper (c : Nat) : Nat := if 97 ≤ c ∧ c ≤ 122 then c - 32 else c

/-- The C library's `tolower` in the "C" locale, on a byte. -/
def tolower (c : Nat) : Nat := if 65 ≤ c ∧ c ≤ 90 then c + 32 else c

/-- The text of a string literal as bytes. -/
def bytesOf (s : String) : List Nat := s.toList.map Char.toNat

/-- The `switch (c)` of `compress_nucleotides` and of `compress_kmer`:
`'A'`, `'C'`, `'G'`, `'T'` to `0b00`, `0b01`, `0b10`, `0b11`; `none` is the
`default:` branch. -/
def nucleotide_code (c : Nat) : Option Nat :=
  if c = 65 then some 0
  else if c = 67 then some 1
  else if c = 71 then some 2
  else if c = 84 then some 3
  else none

/-- The `switch (code)` of `dna_to_string` and of `kmer_to_string`. -/
def code_nucleotide (code : Nat) : Option Nat :=
  if code = 0 then some 65
  else if code = 1 then some 67
  else if code = 2 then some 71
  else if code = 3 then some 84
  else none

/-! ## Memory allocation (`utils/palloc.h`, `utils/memutils.h`) -/

/-- The constant `MaxAllocSize` of PostgreSQL, `0x3fffffff`. -/
def MaxAllocSize : Nat := 0x3fffffff

/-- The functions `palloc(size)` and `palloc0(size)` on a `size_t`: an error when the
size exceeds `MaxAllocSize`. -/
def palloc (size : Nat) : Except PgError Unit :=
  if MaxAllocSize < size then .error (.invalidAllocRequest size) else .ok ()

/-! ## dna.c -/

/-- The `DNA` struct without its varlena header: `length` is an `int32`,
`data` the bytes of the flexible array member. -/
structure DNA where
  length : Int
  data : List Nat
  deriving DecidableEq

/-- The loop of `compress_nucleotides`, from index `i` on, over the remaining
characters of `str`. -/
def compress_nucleotides_loop : List Nat → Nat → List Nat → Except PgError (List Nat)
  | [], _, data => .ok data
  | ch :: rest, i, data =>
    let c := toupper ch
    match nucleotide_code c with
    | none => .error (.dnaInvalidNucleotide c (i + 1))
    | some code =>
      let byte_pos := i / 4
      let bit_pos := (3 - i % 4) * 2
      match data[byte_pos]? with
      | none => .error .fault
      | some b =>
        compress_nucleotides_loop rest (i + 1)
          (data.set byte_pos ((b ||| (code <<< bit_pos)) % 256))

/-- The function `compress_nucleotides(str, len, data)` with `len = strlen(str)`: the
first `(len + 3) / 4` bytes of `data` are zeroed, then the loop runs. -/
def compress_nucleotides (str : List Nat) (data : List Nat) : Except PgError (List Nat) :=
  let n := (str.length + 3) / 4
  compress_nucleotides_loop str 0 (List.replicate (min n data.length) 0 ++ data.drop n)

/-- The loop of `dna_to_string`: `n` characters from index `i` on. -/
def dna_to_string_loop (data : List Nat) : Nat → Nat → Except PgError (List Nat)
  | _, 0 => .ok []
  | i, n + 1 =>
    match data[i / 4]? with
    | none => .error .fault
    | some b =>
      let code := (b >>> ((3 - i % 4) * 2)) &&& 3
      match code_nucleotide code with
      | none => .error (.dnaInvalidCode code (i + 1))
      | some nucleotide =>
        match dna_to_string_loop data (i + 1) n with
        | .error e => .error e
        | .ok rest => .ok (nucleotide :: rest)

/-- The function `dna_to_string`: `size_t len = dna->length`, `palloc(len + 1)` on the
`size_t`, then the loop. -/
def dna_to_string (dna : DNA) : Except PgError (List Nat) :=
  let len := toSize dna.length
  match palloc ((len + 1) % 2 ^ 64) with
  | .error e => .error e
  | .ok _ => dna_to_string_loop dna.data 0 len

/-- The function `dna_in` (and `dna_constructor`, which has the same body):
`total_size` is `VARHDRSZ + sizeof(int32) + data_size`, the block is allocated
and zeroed before the text is looked at. -/
def dna_in (str : List Nat) : Except PgError DNA :=
  let len := str.length
  let data_size := (len + 3) / 4
  let total_size := 8 + data_size
  match palloc total_size with
  | .error e => .error e
  | .ok _ =>
    match compress_nucleotides str (List.replicate data_size 0) with
    | .error e => .error e
    | .ok data => .ok { length := toInt32 len, data := data }

/-- The function `dna_out`. -/
def dna_out (dna : DNA) : Except PgError (List Nat) := dna_to_string dna

/-! ## kmer.c -/

/-- The `Kmer` struct: `length` is a `uint8`, `value` a `uint64`. -/
structure Kmer where
  length : Nat
  value : Nat
  deriving DecidableEq

/-- The loop of `compress_kmer` over the remaining characters, `result` being
a `uint64`. -/
def compress_kmer_loop : List Nat → Nat → Except PgError Nat
  | [], result => .ok result
  | ch :: rest, result =>
    let c := toupper ch
    match nucleotide_code c with
    | none => .error (.kmerInvalidNucleotide c)
    | some code => compress_kmer_loop rest (((result <<< 2) % 2 ^ 64) ||| code)

/-- The function `compress_kmer(str, length, value)`: the loop reads `str[0]` to
`str[length - 1]`. -/
def compress_kmer (str : List Nat) (length : Nat) : Except PgError Nat :=
  compress_kmer_loop (str.take length) 0

/-- The loop of `kmer_to_string`: `n` characters from index `i` on.  The
`uint8 shift` is reduced modulo `256`; a shift of `64` or more of the 64-bit
word is undefined in C and is the outcome `fault`, as is a `switch` without a
matching case. -/
def kmer_to_string_loop (kmer : Kmer) : Nat → Nat → Except PgError (List Nat)
  | _, 0 => .ok []
  | i, n + 1 =>
    let shift := ((kmer.length - i - 1) * 2) % 256
    if 64 ≤ shift then .error .fault
    else
      let nucleotide := ((kmer.value >>> shift) &&& 3) % 256
      match code_nucleotide nucleotide with
      | none => .error .fault
      | some ch =>
        match kmer_to_string_loop kmer (i + 1) n with
        | .error e => .error e
        | .ok rest => .ok (ch :: rest)

/-- The function `kmer_to_string`. -/
def kmer_to_string (kmer : Kmer) : Except PgError (List Nat) :=
  kmer_to_string_loop kmer 0 kmer.length

/-- The function `kmer_in` (and `kmer_constructor`, which has the same body). -/
def kmer_in (str : List Nat) : Except PgError Kmer :=
  let len := str.length
  if len = 0 ∨ len > 32 then .error .kmerLength
  else
    let length := len % 256
    match compress_kmer str length with
    | .error e => .error e
    | .ok value => .ok { length := length, value := value }

/-- The function `kmer_out`. -/
def kmer_out (kmer : Kmer) : Except PgError (List Nat) := kmer_to_string kmer

/-! ## qkmer.c -/

/-- The `QKmer` struct: `length` is an `int16`, `high` and `low` are `uint64`. -/
structure QKmer where
  length : Int
  high : Nat
  low : Nat
  deriving DecidableEq

/-- The function `nucleotide_to_bits`: the `switch (toupper(nucleotide))`, case by
case in the order of the source; the error prints the character as given. -/
def nucleotide_to_bits (nucleotide : Nat) : Except PgError Nat :=
  let c := toupper nucleotide
  if c = 65 then .ok 0b0001
  else if c = 67 then .ok 0b0010
  else if c = 71 then .ok 0b0100
  else if c = 84 then .ok 0b1000
  else if c = 82 then .ok 0b0101
  else if c = 89 then .ok 0b1010
  else if c = 83 then .ok 0b0110
  else if c = 87 then .ok 0b1001
  else if c = 75 then .ok 0b1100
  else if c = 77 then .ok 0b0011
  else if c = 66 then .ok 0b1110
  else if c = 68 then .ok 0b1101
  else if c = 72 then .ok 0b1011
  else if c = 86 then .ok 0b0111
  else if c = 78 then .ok 0b1111
  else if c = 0b0000 then .ok 78
  else .error (.qkmerInvalidNucleotide nucleotide)

/-- The function `bits_to_nucleotide`: the `switch (bits & 0b1111)`; `ereport`
does not return, so the `return 'N'` after it is never reached. -/
def bits_to_nucleotide (bits : Nat) : Except PgError Nat :=
  let b := bits &&& 0b1111
  if b = 0b0001 then .ok 65
  else if b = 0b0010 then .ok 67
  else if b = 0b0100 then .ok 71
  else if b = 0b1000 then .ok 84
  else if b = 0b0101 then .ok 82
  else if b = 0b1010 then .ok 89
  else if b = 0b0110 then .ok 83
  else if b = 0b1001 then .ok 87
  else if b = 0b1100 then .ok 75
  else if b = 0b0011 then .ok 77
  else if b = 0b1110 then .ok 66
  else if b = 0b1101 then .ok 68
  else if b = 0b1011 then .ok 72
  else if b = 0b0111 then .ok 86
  else if b = 0b1111 then .ok 78
  else .error (.qkmerInvalidBits bits)

/-- The `for` loop of `qkmer_in` from index `i` on, over the remaining
characters; `high` and `low` are `uint64`. -/
def qkmer_in_loop : List Nat → Nat → Nat → Nat → Except PgError (Nat × Nat)
  | [], _, high, low => .ok (high, low)
  | ch :: rest, i, high, low =>
    match nucleotide_to_bits ch with
    | .error e => .error e
    | .ok bits =>
      if i < 16 then qkmer_in_loop rest (i + 1) (((high <<< 4) % 2 ^ 64) ||| bits) low
      else qkmer_in_loop rest (i + 1) high (((low <<< 4) % 2 ^ 64) ||| bits)

/-- The function `qkmer_in` (and `qkmer_constructor`, which has the same body):
`int len = strlen(str)`, the length check, the loop over `str[0]` to
`str[len - 1]`, then the alignment. -/
def qkmer_in (str : List Nat) : Except PgError QKmer :=
  let len := toInt32 str.length
  if len ≤ 0 ∨ len > 32 then .error .qkmerLength
  else
    match qkmer_in_loop (str.take len.toNat) 0 0 0 with
    | .error e => .error e
    | .ok (high, low) =>
      if len ≤ 16 then
        .ok { length := toInt16 len, high := (high <<< (4 * (16 - len.toNat))) % 2 ^ 64, low := low }
      else if len < 32 then
        .ok { length := toInt16 len, high := high, low := (low <<< (4 * (32 - len.toNat))) % 2 ^ 64 }
      else
        .ok { length := toInt16 len, high := high, low := low }

/-- The loop of `qkmer_out`: `n` characters from index `i` on.  For `i ≥ 32`
the shift count `(31 - i) * 4` is negative, which is undefined in C: the
outcome `fault`. -/
def qkmer_out_loop (qkmer : QKmer) : Nat → Nat → Except PgError (List Nat)
  | _, 0 => .ok []
  | i, n + 1 =>
    if 32 ≤ i then .error .fault
    else
      let bits :=
        if i < 16 then (qkmer.high >>> ((15 - i) * 4)) &&& 0xF
        else (qkmer.low >>> ((31 - i) * 4)) &&& 0xF
      match bits_to_nucleotide bits with
      | .error e => .error e
      | .ok ch =>
        match qkmer_out_loop qkmer (i + 1) n with
        | .error e => .error e
        | .ok rest => .ok (ch :: rest)

/-- The function `qkmer_out`: `int len = qkmer->length`, `palloc(len + 1)` with
`len + 1` converted to `size_t`, then the loop runs `len` times.  For `len = -1`
the block has no byte and `result[len]` is written before it: the outcome
`fault`. -/
def qkmer_out (qkmer : QKmer) : Except PgError (List Nat) :=
  let len := qkmer.length
  match palloc (toSize (len + 1)) with
  | .error e => .error e
  | .ok _ =>
    if len < 0 then .error .fault
    else qkmer_out_loop qkmer 0 len.toNat

/-! ## The PostgreSQL message buffer (`libpq/pqformat.h`)

A message being read is the list of its bytes from the cursor on; a reader
returns its value and the rest.  A message being written is the list of the
bytes appended so far. -/

/-- The `k` bytes of `x` in network byte order (most significant first). -/
def be_bytes : Nat → Nat → List Nat
  | 0, _ => []
  | k + 1, x => (x / 256 ^ k) % 256 :: be_bytes k x

/-- The unsigned integer whose bytes in network byte order are `bs`. -/
def be_value (bs : List Nat) : Nat := bs.foldl (fun acc b => acc * 256 + b) 0

/-- The function `pq_copymsgbytes(msg, buf, datalen)` with an `int datalen`: an error
when `datalen` is negative or exceeds what is left. -/
def pq_copymsgbytes (msg : List Nat) (datalen : Int) : Except PgError (List Nat × List Nat) :=
  if datalen < 0 ∨ datalen > msg.length then .error .insufficientData
  else .ok (msg.take datalen.toNat, msg.drop datalen.toNat)

/-- The function `pq_getmsgbyte`: one byte, an error when none is left. -/
def pq_getmsgbyte (msg : List Nat) : Except PgError (Nat × List Nat) :=
  match msg with
  | [] => .error .insufficientData
  | b :: rest => .ok (b, rest)

/-- The function `pq_getmsgint(msg, b)` for `b` of 1, 2 or 4: an unsigned integer of `b`
bytes in network byte order. -/
def pq_getmsgint (msg : List Nat) (b : Nat) : Except PgError (Nat × List Nat) :=
  match pq_copymsgbytes msg b with
  | .error e => .error e
  | .ok (bs, rest) => .ok (be_value bs, rest)

/-- The function `pq_getmsgint64`, its result read as the `uint64` it is assigned to. -/
def pq_getmsgint64 (msg : List Nat) : Except PgError (Nat × List Nat) :=
  match pq_copymsgbytes msg 8 with
  | .error e => .error e
  | .ok (bs, rest) => .ok (be_value bs, rest)

/-- The function `pq_sendbyte`. -/
def pq_sendbyte (buf : List Nat) (byt : Int) : List Nat := buf ++ be_bytes 1 (byt % 2 ^ 8).toNat

/-- The function `pq_sendint16`. -/
def pq_sendint16 (buf : List Nat) (i : Int) : List Nat := buf ++ be_bytes 2 (i % 2 ^ 16).toNat

/-- The function `pq_sendint(buf, i, 4)`. -/
def pq_sendint4 (buf : List Nat) (i : Int) : List Nat := buf ++ be_bytes 4 (i % 2 ^ 32).toNat

/-- The function `pq_sendint64`. -/
def pq_sendint64 (buf : List Nat) (i : Int) : List Nat := buf ++ be_bytes 8 (i % 2 ^ 64).toNat

/-- The function `pq_sendbytes(buf, data, datalen)` with an `int datalen`: the buffer is
enlarged by `datalen`, an error when that is negative, and `datalen` bytes of
`data` are appended (reading more bytes than `data` has is a `fault`). -/
def pq_sendbytes (buf : List Nat) (data : List Nat) (datalen : Int) : Except PgError (List Nat) :=
  if datalen < 0 then .error (.invalidEnlargement datalen)
  else if datalen > data.length then .error .fault
  else .ok (buf ++ data.take datalen.toNat)

/-! ## Binary input and output -/

/-- The expression `(len + 3) / 4` on an `int32`, converted to `size_t`: the sum
wraps, the division truncates toward zero. -/
def data_size_of (len : Int) : Nat := toSize ((toInt32 (len + 3)).tdiv 4)

/-- The function `dna_recv`: the length is read, `total_size` is computed on
`size_t`, the block is allocated, then `data_size` bytes are copied. -/
def dna_recv (buf : List Nat) : Except PgError DNA :=
  match pq_getmsgint buf 4 with
  | .error e => .error e
  | .ok (n, buf1) =>
    let len := toInt32 n
    let data_size := data_size_of len
    let total_size := (8 + data_size) % 2 ^ 64
    match palloc total_size with
    | .error e => .error e
    | .ok _ =>
      match pq_copymsgbytes buf1 (toInt32 data_size) with
      | .error e => .error e
      | .ok (data, _) => .ok { length := len, data := data }

/-- The function `dna_send`. -/
def dna_send (dna : DNA) : Except PgError (List Nat) :=
  let buf := pq_sendint4 [] dna.length
  let data_size := data_size_of dna.length
  pq_sendbytes buf dna.data (toInt32 data_size)

/-- The function `kmer_recv`. -/
def kmer_recv (buf : List Nat) : Except PgError Kmer :=
  match pq_getmsgbyte buf with
  | .error e => .error e
  | .ok (length, buf1) =>
    if length = 0 ∨ length > 32 then .error .kmerRecvLength
    else
      match pq_getmsgint64 buf1 with
      | .error e => .error e
      | .ok (value, _) => .ok { length := length, value := value }

/-- The function `kmer_send`. -/
def kmer_send (kmer : Kmer) : List Nat :=
  pq_sendint64 (pq_sendbyte [] kmer.length) kmer.value

/-- The function `qkmer_send`. -/
def qkmer_send (qkmer : QKmer) : List Nat :=
  pq_sendint64 (pq_sendint64 (pq_sendint16 [] qkmer.length) qkmer.high) qkmer.low

/-- The function `qkmer_recv`. -/
def qkmer_recv (buf : List Nat) : Except PgError QKmer :=
  match pq_getmsgint buf 2 with
  | .error e => .error e
  | .ok (n, buf1) =>
    match pq_getmsgint64 buf1 with
    | .error e => .error e
    | .ok (high, buf2) =>
      match pq_getmsgint64 buf2 with
      | .error e => .error e
      | .ok (low, _) => .ok { length := toInt16 n, high := high, low := low }

/-! ## Vocabulary of the statements -/

/-- The 2-bit code of a character of a valid text (`0` outside the table). -/
def codeOf (c : Nat) : Nat := (nucleotide_code (toupper c)).getD 0

/-- A character is one of `A`, `C`, `G`, `T` in either case. -/
def IsBase (c : Nat) : Prop :=
  c = 65 ∨ c = 67 ∨ c = 71 ∨ c = 84 ∨ c = 97 ∨ c = 99 ∨ c = 103 ∨ c = 116

instance (c : Nat) : Decidable (IsBase c) := by
  unfold IsBase; infer_instance

/-- Text over `A`, `C`, `G`, `T` in either case. -/
def ValidBases (s : List Nat) : Prop := ∀ c ∈ s, IsBase c

instance (s : List Nat) : Decidable (ValidBases s) := by
  unfold ValidBases; infer_instance

/-- A character is one of the 15 IUPAC symbols `A C G T R Y S W K M B D H V N`
in either case. -/
def IsIupac (c : Nat) : Prop :=
  c = 65 ∨ c = 67 ∨ c = 71 ∨ c = 84 ∨ c = 82 ∨ c = 89 ∨ c = 83 ∨ c = 87 ∨ c = 75 ∨ c = 77 ∨
  c = 66 ∨ c = 68 ∨ c = 72 ∨ c = 86 ∨ c = 78 ∨
  c = 97 ∨ c = 99 ∨ c = 103 ∨ c = 116 ∨ c = 114 ∨ c = 121 ∨ c = 115 ∨ c = 119 ∨ c = 107 ∨
  c = 109 ∨ c = 98 ∨ c = 100 ∨ c = 104 ∨ c = 118 ∨ c = 110

instance (c : Nat) : Decidable (IsIupac c) := by
  unfold IsIupac; infer_instance

/-- Text over the 15 IUPAC symbols in either case. -/
def ValidIupac (s : List Nat) : Prop := ∀ c ∈ s, IsIupac c

instance (s : List Nat) : Decidable (ValidIupac s) := by
  unfold ValidIupac; infer_instance

/-- The bytes of a C string: none is the terminating NUL, each fits a byte. -/
def IsCString (s : List Nat) : Prop := ∀ c ∈ s, 0 < c ∧ c < 256

instance (s : List Nat) : Decidable (IsCString s) := by
  unfold IsCString; infer_instance

/-- The data-model invariant of a Sequence: a non-negative length and
`ceil(length / 4)` data bytes, each a byte. -/
def DNA.Valid (v : DNA) : Prop :=
  0 ≤ v.length ∧ (v.data.length : Int) = (v.length + 3) / 4 ∧ ∀ b ∈ v.data, b < 256

instance (v : DNA) : Decidable v.Valid := by
  unfold DNA.Valid; infer_instance

/-- The value of a list of digits in base `B`, most significant first. -/
def digits_value (B : Nat) (ds : List Nat) : Nat := ds.foldl (fun acc d => acc * B + d) 0

/-- The 4-bit pattern `nucleotide_to_bits` gives a character (`0` when it raises). -/
def bitsOf (c : Nat) : Nat :=
  match nucleotide_to_bits c with
  | .ok b => b
  | .error _ => 0

/-- The character `c`, at index `i` of `s`, is the first one of `s` outside the
table `P`. -/
def FirstOutside (P : Nat → Prop) (s : List Nat) (i c : Nat) : Prop :=
  ∃ pre post, s = pre ++ c :: post ∧ pre.length = i ∧ (∀ x ∈ pre, P x) ∧ ¬ P c

/-- Symbol `i` of a `QKmer` as `qkmer_out` extracts it: the nibble of `high` at
shift `(15 - i) * 4` for `i < 16`, of `low` at shift `(31 - i) * 4` otherwise. -/
def nibble (q : QKmer) (i : Nat) : Nat :=
  if i < 16 then (q.high >>> ((15 - i) * 4)) &&& 0xF
  else (q.low >>> ((31 - i) * 4)) &&& 0xF

/-- The 15 IUPAC symbols, in the order of the `switch` of `nucleotide_to_bits`. -/
def iupac_symbols : List Nat := [65, 67, 71, 84, 82, 89, 83, 87, 75, 77, 66, 68, 72, 86, 78]

/-- The bases an IUPAC symbol stands for (IUPAC nucleotide nomenclature):
`R` is `A` or `G`, `Y` is `C` or `T`, `S` is `G` or `C`, `W` is `A` or `T`, `K` is
`G` or `T`, `M` is `A` or `C`, `B` is not `A`, `D` is not `C`, `H` is not `G`, `V` is
not `T`, `N` is any base. -/
def iupac_bases (c : Nat) : List Nat :=
  if c = 65 then [65]
  else if c = 67 then [67]
  else if c = 71 then [71]
  else if c = 84 then [84]
  else if c = 82 then [65, 71]
  else if c = 89 then [67, 84]
  else if c = 83 then [71, 67]
  else if c = 87 then [65, 84]
  else if c = 75 then [71, 84]
  else if c = 77 then [65, 67]
  else if c = 66 then [67, 71, 84]
  else if c = 68 then [65, 71, 84]
  else if c = 72 then [65, 67, 84]
  else if c = 86 then [65, 67, 71]
  else if c = 78 then [65, 67, 71, 84]
  else []

/-- The bit of a base in a 4-bit pattern: `A` bit 0, `C` bit 1, `G` bit 2, `T` bit 3. -/
def base_bit (b : Nat) : Nat :=
  if b = 65 then 0 else if b = 67 then 1 else if b = 71 then 2 else 3

/-- The character `bits_to_nucleotide` gives a pattern (`0` when it raises). -/
def symbolOf (p : Nat) : Nat :=
  match bits_to_nucleotide p with
  | .ok c => c
  | .error _ => 0

/-- The cases of the `switch` of `nucleotide_to_bits` as a partial function of the
upper-cased character (`none` is the `default:` branch). -/
def iupac_code (u : Nat) : Option Nat :=
  if u = 65 then some 0b0001
  else if u = 67 then some 0b0010
  else if u = 71 then some 0b0100
  else if u = 84 then some 0b1000
  else if u = 82 then some 0b0101
  else if u = 89 then some 0b1010
  else if u = 83 then some 0b0110
  else if u = 87 then some 0b1001
  else if u = 75 then some 0b1100
  else if u = 77 then some 0b0011
  else if u = 66 then some 0b1110
  else if u = 68 then some 0b1101
  else if u = 72 then some 0b1011
  else if u = 86 then some 0b0111
  else if u = 78 then some 0b1111
  else if u = 0b0000 then some 78
  else none

/-- The outcome for an optional code: the code, or the error `e` when there is none. -/
def okOr (e : PgError) (o : Option Nat) : Except PgError Nat :=
  match o with
  | some b => .ok b
  | none => .error e

/-- The `n` low-order digits of `x` in base `B`, most significant first. -/
def digitsOf (B n x : Nat) : List Nat := (List.range n).map (fun i => x / B ^ (n - 1 - i) % B)

/-- The character of a 2-bit code (`0` outside the table). -/
def charOf (d : Nat) : Nat := (code_nucleotide d).getD 0

/-- A well-formed `Kmer`: a length from 1 to 32 and no bit set at position
`2 * length` or above. -/
def Kmer.WellFormed (v : Kmer) : Prop := 1 ≤ v.length ∧ v.length ≤ 32 ∧ v.value < 4 ^ v.length

instance (v : Kmer) : Decidable v.WellFormed := by
  unfold Kmer.WellFormed; infer_instance

/-- A character is one of `A`, `C`, `G`, `T` in upper case. -/
def IsUpperBase (c : Nat) : Prop := c = 65 ∨ c = 67 ∨ c = 71 ∨ c = 84

instance (c : Nat) : Decidable (IsUpperBase c) := by
  unfold IsUpperBase; infer_instance

/-! ## Facts about the packed buffer of `dna.c` -/

theorem isBase_iff (c : Nat) : IsBase c ↔ (nucleotide_code (toupper c)).isSome := by
  unfold IsBase nucleotide_code toupper
  constructor
  · intro h
    rcases h with h | h | h | h | h | h | h | h <;> subst h <;> decide
  · intro h
    split_ifs at h <;> first | omega | simp at h

theorem nucleotide_code_lt {c code : Nat} (h : nucleotide_code c = some code) : code < 4 := by
  unfold nucleotide_code at h
  split_ifs at h <;> simp at h <;> omega

theorem code_nucleotide_code {c code : Nat} (h : nucleotide_code c = some code) :
    code_nucleotide code = some c := by
  unfold nucleotide_code at h
  split_ifs at h <;> simp at h <;> subst h <;> simp [code_nucleotide, *]

theorem dna_to_string_loop_length (data : List Nat) :
    ∀ n i r, dna_to_string_loop data i n = .ok r → r.length = n := by
  intro n
  induction n with
  | zero =>
    intro i r h
    simp only [dna_to_string_loop, Except.ok.injEq] at h
    rw [← h]; rfl
  | succ n ih =>
    intro i r h
    simp only [dna_to_string_loop] at h
    split at h
    · cases h
    · split at h
      · cases h
      · split at h
        · cases h
        · rename_i rest hrest
          simp only [Except.ok.injEq] at h
          rw [← h, List.length_cons, ih _ _ hrest]

theorem palloc_ok {size : Nat} (h : size ≤ MaxAllocSize) : palloc size = .ok () := by
  have h' : ¬ MaxAllocSize < size := by omega
  simp only [palloc, h', if_false]

theorem digits_value_append (B : Nat) (l : List Nat) (a : Nat) :
    digits_value B (l ++ [a]) = digits_value B l * B + a := by
  simp [digits_value, List.foldl_append]

theorem digits_value_lt (B : Nat) : ∀ ds : List Nat, (∀ d ∈ ds, d < B) →
    digits_value B ds < B ^ ds.length := by
  intro ds
  induction ds using List.reverseRecOn with
  | nil => intro _; simp [digits_value]
  | append_singleton l a ih =>
    intro h
    have hl := ih (fun d hd => h d (List.mem_append_left _ hd))
    have ha : a < B := h a (by simp)
    rw [digits_value_append, List.length_append, List.length_singleton, pow_succ]
    nlinarith

/-- Digit `i` of a packed value is recovered by dividing by the weight of its
position. -/
theorem digits_value_digit (B : Nat) : ∀ ds : List Nat, (∀ d ∈ ds, d < B) →
    ∀ i (h : i < ds.length), digits_value B ds / B ^ (ds.length - 1 - i) % B = ds[i] := by
  intro ds
  induction ds using List.reverseRecOn with
  | nil => intro _ i h; simp at h
  | append_singleton l a ih =>
    intro hd i hi
    have ha : a < B := hd a (by simp)
    have hB : 0 < B := by omega
    rw [digits_value_append]
    simp only [List.length_append, List.length_singleton] at hi ⊢
    by_cases hil : i < l.length
    · have e : l.length + 1 - 1 - i = (l.length - 1 - i) + 1 := by omega
      rw [e, pow_succ', ← Nat.div_div_eq_div_mul]
      have : (digits_value B l * B + a) / B = digits_value B l := by
        rw [Nat.add_comm, Nat.add_mul_div_right _ _ hB, Nat.div_eq_of_lt ha, Nat.zero_add]
      rw [this, ih (fun d hd' => hd d (List.mem_append_left _ hd')) i hil,
        List.getElem_append_left hil]
    · have e : i = l.length := by omega
      subst e
      simp [Nat.add_mod, Nat.mod_eq_of_lt ha]

/-! ## Facts about `kmer.c` -/

theorem shl2_lor (r code : Nat) (hr : r * 4 < 2 ^ 64) (hc : code < 4) :
    ((r <<< 2) % 2 ^ 64) ||| code = r * 4 + code := by
  rw [Nat.shiftLeft_eq]
  have h4 : (2 : Nat) ^ 2 = 4 := by norm_num
  rw [h4, Nat.mod_eq_of_lt hr, Nat.mul_comm r 4]
  have := @Nat.mul_add_lt_is_or 2 code (by simpa using hc) r
  rw [h4] at this
  exact this.symm

theorem codeOf_eq {c code : Nat} (h : nucleotide_code (toupper c) = some code) :
    codeOf c = code := by
  simp [codeOf, h]

theorem codeOf_lt (c : Nat) : codeOf c < 4 := by
  unfold codeOf
  cases h : nucleotide_code (toupper c) with
  | none => simp
  | some code => simpa using nucleotide_code_lt h

theorem code_nucleotide_codeOf {c : Nat} (h : IsBase c) :
    code_nucleotide (codeOf c) = some (toupper c) := by
  obtain ⟨code, hcode⟩ := Option.isSome_iff_exists.mp ((isBase_iff c).mp h)
  rw [codeOf_eq hcode]
  exact code_nucleotide_code hcode

/-- On a valid text that still fits the word, the loop of `compress_kmer`
computes the base-4 value of the codes, without overflow. -/
theorem compress_kmer_loop_spec : ∀ (str : List Nat) (r k : Nat), ValidBases str →
    r < 4 ^ k → k + str.length ≤ 32 →
    compress_kmer_loop str r = .ok ((str.map codeOf).foldl (fun acc d => acc * 4 + d) r) := by
  intro str
  induction str with
  | nil => intro r k _ _ _; rfl
  | cons ch rest ih =>
    intro r k hv hr hk
    simp only [List.length_cons] at hk
    obtain ⟨code, hcode⟩ := Option.isSome_iff_exists.mp
      ((isBase_iff ch).mp (hv ch (List.mem_cons_self _ _)))
    have hc4 : code < 4 := nucleotide_code_lt hcode
    have hpow : 4 ^ (k + 1) ≤ 4 ^ 32 := Nat.pow_le_pow_right (by decide) (by omega)
    have hr4 : r * 4 < 2 ^ 64 := by
      have : r * 4 < 4 ^ (k + 1) := by rw [pow_succ]; omega
      have e : (4 : Nat) ^ 32 = 2 ^ 64 := by norm_num
      omega
    have hnext : r * 4 + code < 4 ^ (k + 1) := by rw [pow_succ]; omega
    simp only [compress_kmer_loop, hcode, shl2_lor r code hr4 hc4, List.map_cons,
      List.foldl_cons, codeOf_eq hcode]
    exact ih (r * 4 + code) (k + 1) (fun c hc => hv c (List.mem_cons_of_mem _ hc)) hnext
      (by omega)

/-- What `kmer_in` returns on a valid text of 1 to 32 characters. -/
theorem kmer_in_spec (s : List Nat) (h1 : 1 ≤ s.length) (h32 : s.length ≤ 32)
    (hv : ValidBases s) :
    kmer_in s = .ok { length := s.length, value := digits_value 4 (s.map codeOf) } := by
  have hlen : ¬ (s.length = 0 ∨ s.length > 32) := by omega
  have hmod : s.length % 256 = s.length := Nat.mod_eq_of_lt (by omega)
  have hloop := compress_kmer_loop_spec s 0 0 hv (by decide) (by omega)
  simp only [kmer_in, hlen, if_false, hmod, compress_kmer, List.take_length, hloop]
  rfl

theorem kmer_to_string_loop_spec (s : List Nat) (h32 : s.length ≤ 32) (hv : ValidBases s) :
    ∀ n i, i + n = s.length →
      kmer_to_string_loop { length := s.length, value := digits_value 4 (s.map codeOf) } i n
        = .ok ((s.drop i).map toupper) := by
  intro n
  induction n with
  | zero =>
    intro i hi
    have : s.drop i = [] := List.drop_eq_nil_of_le (by omega)
    rw [this]; rfl
  | succ n ih =>
    intro i hi
    have hi' : i < s.length := by omega
    have hshift : ((s.length - i - 1) * 2) % 256 = 2 * (s.length - 1 - i) := by omega
    have hlt : ¬ 64 ≤ 2 * (s.length - 1 - i) := by omega
    have h3 : (3 : Nat) = 2 ^ 2 - 1 := by norm_num
    have hdig := digits_value_digit 4 (s.map codeOf)
      (fun d hd => by
        obtain ⟨c, _, rfl⟩ := List.mem_map.mp hd
        exact codeOf_lt c) i (by simpa using hi')
    simp only [List.length_map, List.getElem_map] at hdig
    have hnuc : ((digits_value 4 (s.map codeOf) >>> (2 * (s.length - 1 - i))) &&& 3) % 256
        = codeOf s[i] := by
      rw [Nat.shiftRight_eq_div_pow, pow_mul, h3, Nat.and_pow_two_sub_one_eq_mod]
      have e4 : (2 : Nat) ^ 2 = 4 := by norm_num
      rw [e4, hdig]
      exact Nat.mod_eq_of_lt (by have := codeOf_lt s[i]; omega)
    have hdrop : s.drop i = s[i] :: s.drop (i + 1) := List.drop_eq_getElem_cons hi'
    simp only [kmer_to_string_loop, hshift, hlt, if_false, hnuc,
      code_nucleotide_codeOf (hv _ (List.getElem_mem hi')), ih (i + 1) (by omega), hdrop,
      List.map_cons]

/-- C2: for every text of 1 to 32 characters over `A`, `C`, `G`, `T` in
either case (32 characters fill the 64-bit word), `kmer_in` succeeds and
`kmer_to_string` of its result is the text in upper case. -/
theorem fixed_kmer_round_trip (s : List Nat) (h1 : 1 ≤ s.length) (h32 : s.length ≤ 32)
    (hv : ValidBases s) :
    ∃ v, kmer_in s = .ok v ∧ kmer_to_string v = .ok (s.map toupper) := by
  refine ⟨_, kmer_in_spec s h1 h32 hv, ?_⟩
  have := kmer_to_string_loop_spec s h32 hv s.length 0 (by omega)
  simpa [kmer_to_string] using this

theorem fixed_kmer_round_trip_witness :
    ∃ v, kmer_in (bytesOf "acgtACGTacgtACGTacgtACGTacgtACGT") = .ok v ∧
      kmer_to_string v = .ok ((bytesOf "acgtACGTacgtACGTacgtACGTacgtACGT").map toupper) :=
  fixed_kmer_round_trip (bytesOf "acgtACGTacgtACGTacgtACGTacgtACGT") (by decide) (by decide)
    (by decide)

/-! ## Facts about `qkmer.c` -/

/-- An IUPAC symbol has a non-zero 4-bit pattern, which `bits_to_nucleotide`
maps back to the symbol in upper case. -/
theorem iupac_bits {c : Nat} (h : IsIupac c) :
    nucleotide_to_bits c = .ok (bitsOf c) ∧ 0 < bitsOf c ∧ bitsOf c < 16 ∧
      bits_to_nucleotide (bitsOf c) = .ok (toupper c) := by
  unfold IsIupac at h
  rcases h with h | h | h | h | h | h | h | h | h | h | h | h | h | h | h | h | h | h | h | h |
    h | h | h | h | h | h | h | h | h | h <;> subst h <;> decide

theorem shl4_lor (r b : Nat) (hr : r * 16 < 2 ^ 64) (hb : b < 16) :
    ((r <<< 4) % 2 ^ 64) ||| b = r * 16 + b := by
  rw [Nat.shiftLeft_eq]
  have h16 : (2 : Nat) ^ 4 = 16 := by norm_num
  rw [h16, Nat.mod_eq_of_lt hr, Nat.mul_comm r 16]
  have := @Nat.mul_add_lt_is_or 4 b (by simpa using hb) r
  rw [h16] at this
  exact this.symm

/-- On a valid text that still fits the two words, the loop of `qkmer_in`
accumulates the characters up to index 15 into `high` and the others into
`low`, without overflow. -/
theorem qkmer_in_loop_spec : ∀ (str : List Nat) (i high low : Nat), ValidIupac str →
    high < 16 ^ (min i 16) → low < 16 ^ (i - 16) → i + str.length ≤ 32 →
    qkmer_in_loop str i high low = .ok
      (((str.take (16 - i)).map bitsOf).foldl (fun acc d => acc * 16 + d) high,
       ((str.drop (16 - i)).map bitsOf).foldl (fun acc d => acc * 16 + d) low) := by
  intro str
  induction str with
  | nil => intro i high low _ _ _ _; simp [qkmer_in_loop]
  | cons ch rest ih =>
    intro i high low hv hh hl hlen
    simp only [List.length_cons] at hlen
    obtain ⟨hbits, _, hb16, _⟩ := iupac_bits (hv ch (List.mem_cons_self _ _))
    have hv' : ValidIupac rest := fun c hc => hv c (List.mem_cons_of_mem _ hc)
    have e64 : (16 : Nat) ^ 16 = 2 ^ 64 := by norm_num
    by_cases hi : i < 16
    · have hmin : min i 16 = i := by omega
      rw [hmin] at hh
      have hpow : 16 ^ (i + 1) ≤ 16 ^ 16 := Nat.pow_le_pow_right (by decide) (by omega)
      have hnext : high * 16 + bitsOf ch < 16 ^ (i + 1) := by rw [pow_succ]; omega
      have hr : high * 16 < 2 ^ 64 := by omega
      have e : 16 - i = (16 - (i + 1)) + 1 := by omega
      simp only [qkmer_in_loop, hbits, hi, if_true, shl4_lor high _ hr hb16]
      have hh' : high * 16 + bitsOf ch < 16 ^ (min (i + 1) 16) := by
        rw [show min (i + 1) 16 = i + 1 by omega]; exact hnext
      have hl' : low < 16 ^ (i + 1 - 16) := by
        rw [show i + 1 - 16 = 0 by omega]
        rw [show i - 16 = 0 by omega] at hl
        exact hl
      rw [ih (i + 1) _ low hv' hh' hl' (by omega), e]
      simp only [List.take_succ_cons, List.drop_succ_cons, List.map_cons, List.foldl_cons]
    · have hpow : 16 ^ (i - 16 + 1) ≤ 16 ^ 16 := Nat.pow_le_pow_right (by decide) (by omega)
      have hnext : low * 16 + bitsOf ch < 16 ^ (i - 16 + 1) := by rw [pow_succ]; omega
      have hr : low * 16 < 2 ^ 64 := by omega
      have e : 16 - i = 0 := by omega
      have e' : 16 - (i + 1) = 0 := by omega
      simp only [qkmer_in_loop, hbits, hi, if_false, shl4_lor low _ hr hb16]
      have hh' : high < 16 ^ (min (i + 1) 16) := by
        rw [show min (i + 1) 16 = 16 by omega]
        rw [show min i 16 = 16 by omega] at hh
        exact hh
      have hl' : low * 16 + bitsOf ch < 16 ^ (i + 1 - 16) := by
        rw [show i + 1 - 16 = i - 16 + 1 by omega]; exact hnext
      rw [ih (i + 1) high _ hv' hh' hl' (by omega), e, e']
      simp only [List.take_zero, List.drop_zero, List.map_cons, List.foldl_cons, List.map_nil,
        List.foldl_nil]

/-- A half-word of the `QKmer` holding the digits `ds`, left-aligned. -/
theorem aligned_digit (ds : List Nat) (hd : ∀ d ∈ ds, d < 16) (hn : ds.length ≤ 16)
    (i : Nat) (hi : i < ds.length) :
    ((digits_value 16 ds * 16 ^ (16 - ds.length)) >>> ((15 - i) * 4)) &&& 0xF = ds[i] := by
  have hF : (0xF : Nat) = 2 ^ 4 - 1 := by norm_num
  have e16 : (2 : Nat) ^ 4 = 16 := by norm_num
  rw [Nat.shiftRight_eq_div_pow, Nat.mul_comm (15 - i) 4, pow_mul, hF,
    Nat.and_pow_two_sub_one_eq_mod, e16]
  have e : 15 - i = (ds.length - 1 - i) + (16 - ds.length) := by omega
  rw [e, pow_add, Nat.mul_div_mul_right _ _ (by positivity)]
  exact digits_value_digit 16 ds hd i hi

theorem shl_align (v n : Nat) (hv : v < 16 ^ n) (hn : n ≤ 16) :
    (v <<< (4 * (16 - n))) % 2 ^ 64 = v * 16 ^ (16 - n) := by
  have e16 : (2 : Nat) ^ 4 = 16 := by norm_num
  rw [Nat.shiftLeft_eq, pow_mul, e16]
  apply Nat.mod_eq_of_lt
  have h1 : v * 16 ^ (16 - n) < 16 ^ n * 16 ^ (16 - n) :=
    Nat.mul_lt_mul_of_pos_right hv (by positivity)
  have h2 : 16 ^ n * 16 ^ (16 - n) = 2 ^ 64 := by
    rw [← pow_add, show n + (16 - n) = 16 by omega]; norm_num
  omega

theorem toInt32_of_le {n : Nat} (h : n ≤ 32) : toInt32 (n : Int) = (n : Int) := by
  unfold toInt32; omega

theorem toInt16_of_le {n : Nat} (h : n ≤ 32) : toInt16 (n : Int) = (n : Int) := by
  unfold toInt16; omega

theorem bitsOf_lt_of_valid {s : List Nat} (hv : ValidIupac s) :
    ∀ d ∈ s.map bitsOf, d < 16 := by
  intro d hd
  obtain ⟨c, hc, rfl⟩ := List.mem_map.mp hd
  exact (iupac_bits (hv c hc)).2.2.1

/-- What `qkmer_in` returns on a valid text of 1 to 32 characters: each half
holds its symbols as base-16 digits, left-aligned in the 64-bit word. -/
theorem qkmer_in_spec (s : List Nat) (h1 : 1 ≤ s.length) (h32 : s.length ≤ 32)
    (hv : ValidIupac s) :
    qkmer_in s = .ok
      { length := (s.length : Int),
        high := digits_value 16 ((s.take 16).map bitsOf) * 16 ^ (16 - (s.take 16).length),
        low := digits_value 16 ((s.drop 16).map bitsOf) * 16 ^ (16 - (s.drop 16).length) } := by
  have hlen : ¬ ((s.length : Int) ≤ 0 ∨ (s.length : Int) > 32) := by omega
  have hloop := qkmer_in_loop_spec s 0 0 0 hv (by decide) (by decide) (by omega)
  have hhi : digits_value 16 ((s.take 16).map bitsOf) < 16 ^ (s.take 16).length := by
    have := digits_value_lt 16 ((s.take 16).map bitsOf)
      (bitsOf_lt_of_valid (fun c hc => hv c (List.mem_of_mem_take hc)))
    simpa using this
  have hlo : digits_value 16 ((s.drop 16).map bitsOf) < 16 ^ (s.drop 16).length := by
    have := digits_value_lt 16 ((s.drop 16).map bitsOf)
      (bitsOf_lt_of_valid (fun c hc => hv c (List.mem_of_mem_drop hc)))
    simpa using this
  have htl : (s.take 16).length = min 16 s.length := List.length_take 16 s
  have hdl : (s.drop 16).length = s.length - 16 := List.length_drop 16 s
  simp only [qkmer_in, toInt32_of_le h32, toInt16_of_le h32, hlen, if_false, Int.toNat_ofNat,
    List.take_length, hloop, Nat.sub_zero]
  have hdv : ∀ ds : List Nat, List.foldl (fun acc d => acc * 16 + d) 0 ds = digits_value 16 ds :=
    fun _ => rfl
  simp only [hdv]
  by_cases c16 : s.length ≤ 16
  · have c16' : (s.length : Int) ≤ 16 := by omega
    have hdnil : s.drop 16 = [] := List.drop_eq_nil_of_le c16
    have e : 16 - s.length = 16 - (s.take 16).length := by omega
    rw [if_pos c16', e, shl_align _ _ hhi (by omega)]
    simp [hdnil, digits_value]
  · have c16' : ¬ (s.length : Int) ≤ 16 := by omega
    rw [if_neg c16']
    have eh : 16 - (s.take 16).length = 0 := by omega
    by_cases c32 : s.length < 32
    · have c32' : (s.length : Int) < 32 := by omega
      have e : 32 - s.length = 16 - (s.drop 16).length := by omega
      rw [if_pos c32', e, shl_align _ _ hlo (by omega), eh]
      simp [digits_value]
    · have c32' : ¬ (s.length : Int) < 32 := by omega
      have el : 16 - (s.drop 16).length = 0 := by omega
      rw [if_neg c32', eh, el]
      simp [digits_value]

theorem qkmer_out_of_nonneg (q : QKmer) (h : 0 ≤ q.length) (h15 : q.length < 2 ^ 15) :
    qkmer_out q = qkmer_out_loop q 0 q.length.toNat := by
  have hneg : ¬ (q.length < 0) := by omega
  have halloc : palloc (toSize (q.length + 1)) = .ok () := by
    apply palloc_ok
    unfold toSize MaxAllocSize
    omega
  simp only [qkmer_out, halloc, hneg, if_false]

theorem qkmer_out_loop_spec (s : List Nat) (h32 : s.length ≤ 32) (hv : ValidIupac s)
    (len : Int) :
    ∀ n i, i + n = s.length →
      qkmer_out_loop
        { length := len,
          high := digits_value 16 ((s.take 16).map bitsOf) * 16 ^ (16 - (s.take 16).length),
          low := digits_value 16 ((s.drop 16).map bitsOf) * 16 ^ (16 - (s.drop 16).length) }
        i n = .ok ((s.drop i).map toupper) := by
  intro n
  induction n with
  | zero =>
    intro i hi
    have : s.drop i = [] := List.drop_eq_nil_of_le (by omega)
    rw [this]; rfl
  | succ n ih =>
    intro i hi
    have hi' : i < s.length := by omega
    have h32' : ¬ 32 ≤ i := by omega
    have hdrop : s.drop i = s[i] :: s.drop (i + 1) := List.drop_eq_getElem_cons hi'
    have hback := (iupac_bits (hv _ (List.getElem_mem hi'))).2.2.2
    have hbits : (if i < 16 then
          (digits_value 16 ((s.take 16).map bitsOf) * 16 ^ (16 - (s.take 16).length))
            >>> ((15 - i) * 4) &&& 0xF
        else
          (digits_value 16 ((s.drop 16).map bitsOf) * 16 ^ (16 - (s.drop 16).length))
            >>> ((31 - i) * 4) &&& 0xF) = bitsOf s[i] := by
      by_cases c : i < 16
      · rw [if_pos c]
        have := aligned_digit ((s.take 16).map bitsOf)
          (bitsOf_lt_of_valid (fun c hc => hv c (List.mem_of_mem_take hc)))
          (by simp) i (by simp; omega)
        simpa using this
      · rw [if_neg c]
        have := aligned_digit ((s.drop 16).map bitsOf)
          (bitsOf_lt_of_valid (fun c hc => hv c (List.mem_of_mem_drop hc)))
          (by simp; omega) (i - 16) (by simp; omega)
        have e : 15 - (i - 16) = 31 - i := by omega
        have e2 : 16 + (i - 16) = i := by omega
        simpa [e, e2] using this
    simp only [qkmer_out_loop, h32', if_false, hbits, hback, ih (i + 1) (by omega), hdrop,
      List.map_cons]

/-- C3: for every text of 1 to 32 characters over the 15 IUPAC symbols in
either case, `qkmer_in` succeeds and `qkmer_out` of its result is the text in
upper case (whether the length is below 16, 16, between 17 and 31, or 32). -/
theorem ambiguity_kmer_round_trip (s : List Nat) (h1 : 1 ≤ s.length) (h32 : s.length ≤ 32)
    (hv : ValidIupac s) :
    ∃ v, qkmer_in s = .ok v ∧ qkmer_out v = .ok (s.map toupper) := by
  refine ⟨_, qkmer_in_spec s h1 h32 hv, ?_⟩
  have := qkmer_out_loop_spec s h32 hv (s.length : Int) s.length 0 (by omega)
  rw [qkmer_out_of_nonneg _ (by show (0 : Int) ≤ (s.length : Int); omega)
    (by show (s.length : Int) < 2 ^ 15; omega)]
  simpa using this

theorem ambiguity_kmer_round_trip_witness :
    ∃ v, qkmer_in (bytesOf "acgtRYSWkmbdHVNnA") = .ok v ∧
      qkmer_out v = .ok ((bytesOf "acgtRYSWkmbdHVNnA").map toupper) :=
  ambiguity_kmer_round_trip (bytesOf "acgtRYSWkmbdHVNnA") (by decide) (by decide) (by decide)

/-! ## Facts about the wire format -/

theorem be_bytes_length (k x : Nat) : (be_bytes k x).length = k := by
  induction k with
  | zero => rfl
  | succ k ih => simp [be_bytes, ih]

theorem be_value_be_bytes_1 (x : Nat) (h : x < 2 ^ 8) : be_value (be_bytes 1 x) = x := by
  simp only [be_bytes, be_value, List.foldl_cons, List.foldl_nil]
  omega

theorem be_value_be_bytes_2 (x : Nat) (h : x < 2 ^ 16) : be_value (be_bytes 2 x) = x := by
  simp only [be_bytes, be_value, List.foldl_cons, List.foldl_nil]
  omega

theorem be_value_be_bytes_4 (x : Nat) (h : x < 2 ^ 32) : be_value (be_bytes 4 x) = x := by
  simp only [be_bytes, be_value, List.foldl_cons, List.foldl_nil]
  omega

theorem be_value_be_bytes_8 (x : Nat) (h : x < 2 ^ 64) : be_value (be_bytes 8 x) = x := by
  simp only [be_bytes, be_value, List.foldl_cons, List.foldl_nil]
  omega

theorem pq_copymsgbytes_append (a b : List Nat) (n : Nat) (h : a.length = n) :
    pq_copymsgbytes (a ++ b) (n : Int) = .ok (a, b) := by
  have hn : ¬ ((n : Int) < 0 ∨ (n : Int) > ((a ++ b).length : Int)) := by
    simp only [List.length_append]; omega
  simp only [pq_copymsgbytes, hn, if_false, Int.toNat_ofNat]
  subst h
  simp

theorem pq_getmsgint64_append (x : Nat) (hx : x < 2 ^ 64) (b : List Nat) :
    pq_getmsgint64 (be_bytes 8 x ++ b) = .ok (x, b) := by
  have := pq_copymsgbytes_append (be_bytes 8 x) b 8 (be_bytes_length 8 x)
  simp only [pq_getmsgint64]
  rw [show ((8 : Nat) : Int) = 8 from rfl] at this
  rw [this]
  simp only [be_value_be_bytes_8 x hx]

theorem data_size_of_nonneg (len : Int) (h0 : 0 ≤ len) (h : len ≤ 2147483644) :
    toInt32 (data_size_of len) = (len + 3) / 4 ∧ 0 ≤ (len + 3) / 4 ∧
      (data_size_of len : Int) = (len + 3) / 4 := by
  have h1 : toInt32 (len + 3) = len + 3 := by unfold toInt32; omega
  have h2 : (len + 3).tdiv 4 = (len + 3) / 4 := Int.tdiv_eq_ediv (by omega) (by decide)
  unfold data_size_of
  rw [h1, h2]
  unfold toSize toInt32
  omega

/-- What `dna_send` writes for a valid value whose `length + 3` fits an `int32`. -/
theorem dna_send_spec (v : DNA) (hv : v.Valid) (hlen : v.length ≤ 2147483644) :
    dna_send v = .ok (be_bytes 4 v.length.toNat ++ v.data) := by
  obtain ⟨h0, hsize, _⟩ := hv
  obtain ⟨hds, hnn, -⟩ := data_size_of_nonneg v.length h0 hlen
  have hneg : ¬ ((v.length + 3) / 4 < 0) := by omega
  have hgt : ¬ ((v.length + 3) / 4 > (v.data.length : Int)) := by omega
  have hmod : (v.length % 2 ^ 32).toNat = v.length.toNat := by omega
  have htake : v.data.take ((v.length + 3) / 4).toNat = v.data := by
    apply List.take_of_length_le; omega
  simp only [dna_send, pq_sendbytes, hds, hneg, hgt, if_false, pq_sendint4, hmod, htake,
    List.nil_append]

/-- Where `length + 3` fits the `int32` (lengths up to `2 ^ 31 - 4`), `dna_send`
succeeds on a valid Sequence and `dna_recv` of its bytes returns the same
length and the same packed bytes. -/
theorem dna_recv_dna_send (v : DNA) (hv : v.Valid) (hlen : v.length ≤ 2147483644) :
    ∃ bytes, dna_send v = .ok bytes ∧ dna_recv bytes = .ok v := by
  refine ⟨_, dna_send_spec v hv hlen, ?_⟩
  obtain ⟨h0, hsize, _⟩ := hv
  obtain ⟨hds, hnn, hdsz⟩ := data_size_of_nonneg v.length h0 hlen
  have hget : pq_getmsgint (be_bytes 4 v.length.toNat ++ v.data) 4
      = .ok (v.length.toNat, v.data) := by
    have := pq_copymsgbytes_append (be_bytes 4 v.length.toNat) v.data 4 (be_bytes_length 4 _)
    simp only [pq_getmsgint]
    rw [this]
    simp only [be_value_be_bytes_4 v.length.toNat (by omega)]
  have hback : toInt32 (v.length.toNat : Int) = v.length := by unfold toInt32; omega
  have hcopy : pq_copymsgbytes v.data ((v.length + 3) / 4) = .ok (v.data, []) := by
    have := pq_copymsgbytes_append v.data [] v.data.length rfl
    rw [List.append_nil, hsize] at this
    exact this
  have halloc : palloc ((8 + data_size_of v.length) % 2 ^ 64) = .ok () := by
    apply palloc_ok
    unfold MaxAllocSize
    omega
  simp only [dna_recv, hget, hback, halloc, hds, hcopy]

theorem kmer_send_spec (k : Kmer) (hl : k.length < 2 ^ 8) (hv : k.value < 2 ^ 64) :
    kmer_send k = k.length :: be_bytes 8 k.value := by
  have h1 : ((k.length : Int) % 2 ^ 8).toNat = k.length := by omega
  have h2 : ((k.value : Int) % 2 ^ 64).toNat = k.value := by omega
  have h3 : be_bytes 1 k.length = [k.length] := by
    simp only [be_bytes, pow_zero, Nat.div_one]
    rw [Nat.mod_eq_of_lt (by omega)]
  simp only [kmer_send, pq_sendint64, pq_sendbyte, h1, h2, h3, List.nil_append,
    List.singleton_append]

theorem qkmer_send_spec (q : QKmer) (h0 : 0 ≤ q.length) (hl : q.length < 2 ^ 15)
    (hh : q.high < 2 ^ 64) (hw : q.low < 2 ^ 64) :
    qkmer_send q = be_bytes 2 q.length.toNat ++ (be_bytes 8 q.high ++ be_bytes 8 q.low) := by
  have h1 : (q.length % 2 ^ 16).toNat = q.length.toNat := by omega
  have h2 : ((q.high : Int) % 2 ^ 64).toNat = q.high := by omega
  have h3 : ((q.low : Int) % 2 ^ 64).toNat = q.low := by omega
  simp only [qkmer_send, pq_sendint64, pq_sendint16, h1, h2, h3, List.nil_append,
    List.append_assoc]

/-- C5: for every FixedKmer with a length from 1 to 32 and every AmbiguityKmer
with a length from 1 to 32 (their words being 64-bit words), receiving what
was sent succeeds and returns the value itself: the same length and the same
word, respectively the same `high` and `low`. -/
theorem fixed_width_binary_round_trip (k : Kmer) (q : QKmer)
    (hk1 : 1 ≤ k.length) (hk32 : k.length ≤ 32) (hkv : k.value < 2 ^ 64)
    (hq1 : 1 ≤ q.length) (hq32 : q.length ≤ 32) (hqh : q.high < 2 ^ 64)
    (hql : q.low < 2 ^ 64) :
    kmer_recv (kmer_send k) = .ok k ∧ qkmer_recv (qkmer_send q) = .ok q := by
  constructor
  · have hlen : ¬ (k.length = 0 ∨ k.length > 32) := by omega
    have h64 := pq_getmsgint64_append k.value hkv []
    rw [List.append_nil] at h64
    simp only [kmer_send_spec k (by omega) hkv, kmer_recv, pq_getmsgbyte, hlen, if_false, h64]
  · have hget : pq_getmsgint (be_bytes 2 q.length.toNat ++ (be_bytes 8 q.high ++ be_bytes 8 q.low)) 2
        = .ok (q.length.toNat, be_bytes 8 q.high ++ be_bytes 8 q.low) := by
      have := pq_copymsgbytes_append (be_bytes 2 q.length.toNat)
        (be_bytes 8 q.high ++ be_bytes 8 q.low) 2 (be_bytes_length 2 _)
      simp only [pq_getmsgint]
      rw [this]
      simp only [be_value_be_bytes_2 q.length.toNat (by omega)]
    have hlow := pq_getmsgint64_append q.low hql []
    rw [List.append_nil] at hlow
    have hback : toInt16 (q.length.toNat : Int) = q.length := by unfold toInt16; omega
    simp only [qkmer_send_spec q (by omega) (by omega) hqh hql, qkmer_recv, hget,
      pq_getmsgint64_append q.high hqh, hlow, hback]

theorem fixed_width_binary_round_trip_witness :
    kmer_recv (kmer_send { length := 32, value := 18446744073709551615 })
        = .ok { length := 32, value := 18446744073709551615 } ∧
      qkmer_recv (qkmer_send { length := 17, high := 1311768467463790335, low := 2 ^ 63 })
        = .ok { length := 17, high := 1311768467463790335, low := 2 ^ 63 } :=
  fixed_width_binary_round_trip { length := 32, value := 18446744073709551615 }
    { length := 17, high := 1311768467463790335, low := 2 ^ 63 }
    (by decide) (by decide) (by decide) (by decide) (by decide) (by decide) (by decide)

/-- The byte layout of the three send routines, where `length + 3` of the
Sequence fits the `int32`: `dna_send` yields `4 + ceil(length / 4)` bytes, the
length as 4 bytes in network order then the data bytes in order; `kmer_send`
yields 9 bytes, the length byte then the word as 8 bytes in network order;
`qkmer_send` yields 18 bytes, the length as 2 bytes, `high` as 8 bytes, `low`
as 8 bytes, each in network order. -/
theorem send_layout (v : DNA) (k : Kmer) (q : QKmer)
    (hv : v.Valid) (hlen : v.length ≤ 2147483644)
    (hkl : k.length < 2 ^ 8) (hkv : k.value < 2 ^ 64)
    (hq0 : 0 ≤ q.length) (hql : q.length < 2 ^ 15) (hqh : q.high < 2 ^ 64)
    (hqw : q.low < 2 ^ 64) :
    (∃ bytes, dna_send v = .ok bytes ∧ bytes = be_bytes 4 v.length.toNat ++ v.data ∧
        (bytes.length : Int) = 4 + (v.length + 3) / 4) ∧
      (kmer_send k = k.length :: be_bytes 8 k.value ∧ (kmer_send k).length = 9) ∧
      (qkmer_send q = be_bytes 2 q.length.toNat ++ (be_bytes 8 q.high ++ be_bytes 8 q.low) ∧
        (qkmer_send q).length = 18) := by
  refine ⟨⟨_, dna_send_spec v hv hlen, rfl, ?_⟩, ⟨kmer_send_spec k hkl hkv, ?_⟩,
    ⟨qkmer_send_spec q hq0 hql hqh hqw, ?_⟩⟩
  · have := hv.2.1
    simp only [List.length_append, be_bytes_length]
    omega
  · rw [kmer_send_spec k hkl hkv]
    simp [be_bytes_length]
  · rw [qkmer_send_spec q hq0 hql hqh hqw]
    simp [be_bytes_length]

theorem firstOutside_cons_of_not {P : Nat → Prop} {ch : Nat} (rest : List Nat) (h : ¬ P ch) :
    FirstOutside P (ch :: rest) 0 ch :=
  ⟨[], rest, rfl, rfl, fun _ hx => by simp at hx, h⟩

theorem firstOutside_cons {P : Nat → Prop} {ch : Nat} {rest : List Nat} {i c : Nat}
    (h : P ch) (hr : FirstOutside P rest i c) : FirstOutside P (ch :: rest) (i + 1) c := by
  obtain ⟨pre, post, hs, hl, hp, hc⟩ := hr
  refine ⟨ch :: pre, post, by rw [hs]; rfl, by simp [hl], ?_, hc⟩
  intro x hx
  rcases List.mem_cons.mp hx with rfl | hx
  · exact h
  · exact hp x hx

theorem nucleotide_code_none {c : Nat} (h : ¬ IsBase c) : nucleotide_code (toupper c) = none := by
  cases hc : nucleotide_code (toupper c) with
  | none => rfl
  | some code => exact absurd ((isBase_iff c).mpr (by simp [hc])) h

/-- On a text with a character outside `A`, `C`, `G`, `T`, the loop of
`compress_kmer` raises at the first such character and prints it in upper case. -/
theorem compress_kmer_loop_invalid : ∀ (str : List Nat) (r : Nat), ¬ ValidBases str →
    ∃ i c, FirstOutside IsBase str i c ∧
      compress_kmer_loop str r = .error (.kmerInvalidNucleotide (toupper c)) := by
  intro str
  induction str with
  | nil => intro r h; exact absurd (fun c hc => by simp at hc) h
  | cons ch rest ih =>
    intro r h
    by_cases hch : IsBase ch
    · obtain ⟨code, hcode⟩ := Option.isSome_iff_exists.mp ((isBase_iff ch).mp hch)
      have hrest : ¬ ValidBases rest := by
        intro hv
        apply h
        intro c hc
        rcases List.mem_cons.mp hc with rfl | hc
        · exact hch
        · exact hv c hc
      obtain ⟨i, c, hfo, herr⟩ := ih (((r <<< 2) % 2 ^ 64) ||| code) hrest
      exact ⟨i + 1, c, firstOutside_cons hch hfo, by
        simp only [compress_kmer_loop, hcode]; exact herr⟩
    · exact ⟨0, ch, firstOutside_cons_of_not rest hch, by
        simp only [compress_kmer_loop, nucleotide_code_none hch]⟩

theorem kmer_in_invalid (s : List Nat) (h1 : 1 ≤ s.length) (h32 : s.length ≤ 32)
    (hv : ¬ ValidBases s) :
    ∃ i c, FirstOutside IsBase s i c ∧
      kmer_in s = .error (.kmerInvalidNucleotide (toupper c)) := by
  obtain ⟨i, c, hfo, herr⟩ := compress_kmer_loop_invalid s 0 hv
  have hlen : ¬ (s.length = 0 ∨ s.length > 32) := by omega
  have hmod : s.length % 256 = s.length := Nat.mod_eq_of_lt (by omega)
  exact ⟨i, c, hfo, by
    simp only [kmer_in, hlen, if_false, hmod, compress_kmer, List.take_length, herr]⟩

/-- Outside the 15 symbols, and the NUL byte apart, `nucleotide_to_bits` raises
and prints the character as given. -/
theorem nucleotide_to_bits_outside {c : Nat} (h : ¬ IsIupac c) (h0 : 0 < c) :
    nucleotide_to_bits c = .error (.qkmerInvalidNucleotide c) := by
  unfold IsIupac at h
  simp only [not_or] at h
  have hu : toupper c ≠ 65 ∧ toupper c ≠ 67 ∧ toupper c ≠ 71 ∧ toupper c ≠ 84 ∧
      toupper c ≠ 82 ∧ toupper c ≠ 89 ∧ toupper c ≠ 83 ∧ toupper c ≠ 87 ∧ toupper c ≠ 75 ∧
      toupper c ≠ 77 ∧ toupper c ≠ 66 ∧ toupper c ≠ 68 ∧ toupper c ≠ 72 ∧ toupper c ≠ 86 ∧
      toupper c ≠ 78 ∧ toupper c ≠ 0 := by
    unfold toupper
    split_ifs <;> omega
  obtain ⟨h1, h2, h3, h4, h5, h6, h7, h8, h9, h10, h11, h12, h13, h14, h15, h16⟩ := hu
  simp only [nucleotide_to_bits, h1, h2, h3, h4, h5, h6, h7, h8, h9, h10, h11, h12, h13, h14,
    h15, h16, if_false]

/-- On a C string with a character outside the 15 symbols, the loop of
`qkmer_in` raises at the first such character and prints it. -/
theorem qkmer_in_loop_invalid : ∀ (str : List Nat) (i high low : Nat), IsCString str →
    ¬ ValidIupac str →
    ∃ k c, FirstOutside IsIupac str k c ∧
      qkmer_in_loop str i high low = .error (.qkmerInvalidNucleotide c) := by
  intro str
  induction str with
  | nil => intro i high low _ h; exact absurd (fun c hc => by simp at hc) h
  | cons ch rest ih =>
    intro i high low hcs h
    by_cases hch : IsIupac ch
    · have hbits := (iupac_bits hch).1
      have hrest : ¬ ValidIupac rest := by
        intro hv
        apply h
        intro c hc
        rcases List.mem_cons.mp hc with rfl | hc
        · exact hch
        · exact hv c hc
      have hcs' : IsCString rest := fun c hc => hcs c (List.mem_cons_of_mem _ hc)
      by_cases hi : i < 16
      · obtain ⟨k, c, hfo, herr⟩ := ih (i + 1) (((high <<< 4) % 2 ^ 64) ||| bitsOf ch) low
          hcs' hrest
        exact ⟨k + 1, c, firstOutside_cons hch hfo, by
          simp only [qkmer_in_loop, hbits, hi, if_true]; exact herr⟩
      · obtain ⟨k, c, hfo, herr⟩ := ih (i + 1) high (((low <<< 4) % 2 ^ 64) ||| bitsOf ch)
          hcs' hrest
        exact ⟨k + 1, c, firstOutside_cons hch hfo, by
          simp only [qkmer_in_loop, hbits, hi, if_false]; exact herr⟩
    · have h0 : 0 < ch := (hcs ch (List.mem_cons_self _ _)).1
      exact ⟨0, ch, firstOutside_cons_of_not rest hch, by
        simp only [qkmer_in_loop, nucleotide_to_bits_outside hch h0]⟩

theorem qkmer_in_invalid (s : List Nat) (h1 : 1 ≤ s.length) (h32 : s.length ≤ 32)
    (hcs : IsCString s) (hv : ¬ ValidIupac s) :
    ∃ k c, FirstOutside IsIupac s k c ∧
      qkmer_in s = .error (.qkmerInvalidNucleotide c) := by
  obtain ⟨k, c, hfo, herr⟩ := qkmer_in_loop_invalid s 0 0 0 hcs hv
  have hlen : ¬ ((s.length : Int) ≤ 0 ∨ (s.length : Int) > 32) := by omega
  exact ⟨k, c, hfo, by
    simp only [qkmer_in, toInt32_of_le h32, hlen, if_false, Int.toNat_ofNat, List.take_length,
      herr]⟩

/-! ## Outcomes of the text input functions -/

/-- C7: `kmer_in` raises the length error exactly when the text has 0 or more
than 32 characters, whatever its characters (the length is checked first, so
the empty text and every text of 33 characters raise it); for a text of 1 to
32 characters it raises the invalid-symbol error exactly when some character
is not one of `A`, `C`, `G`, `T` in either case, and otherwise it succeeds
with the length of the text. -/
theorem fixed_kmer_encode_outcome (s : List Nat) :
    ((∃ e, kmer_in s = .error e ∧ e.kind = some .LengthOutOfRange)
        ↔ (s.length = 0 ∨ 32 < s.length)) ∧
    (s.length = 0 ∨ 32 < s.length → kmer_in s = .error .kmerLength) ∧
    (1 ≤ s.length → s.length ≤ 32 →
      ((∃ e, kmer_in s = .error e ∧ e.kind = some .InvalidSymbol) ↔ ¬ ValidBases s) ∧
      (ValidBases s → ∃ v, kmer_in s = .ok v ∧ v.length = s.length)) ∧
    kmer_in [] = .error .kmerLength ∧
    (s.length = 33 → kmer_in s = .error .kmerLength) := by
  have hout : s.length = 0 ∨ 32 < s.length → kmer_in s = .error .kmerLength := by
    intro h
    have h' : s.length = 0 ∨ s.length > 32 := h
    simp only [kmer_in, h', if_true]
  refine ⟨⟨?_, fun h => ⟨_, hout h, rfl⟩⟩, hout, ?_, rfl, fun h => hout (by omega)⟩
  · rintro ⟨e, he, hk⟩
    by_contra hin
    have h1 : 1 ≤ s.length := by omega
    have h32 : s.length ≤ 32 := by omega
    by_cases hv : ValidBases s
    · rw [kmer_in_spec s h1 h32 hv] at he
      cases he
    · obtain ⟨i, c, _, herr⟩ := kmer_in_invalid s h1 h32 hv
      rw [herr] at he
      cases he
      cases hk
  · intro h1 h32
    constructor
    · constructor
      · rintro ⟨e, he, -⟩ hv
        rw [kmer_in_spec s h1 h32 hv] at he
        cases he
      · intro hv
        obtain ⟨i, c, _, herr⟩ := kmer_in_invalid s h1 h32 hv
        exact ⟨_, herr, rfl⟩
    · intro hv
      exact ⟨_, kmer_in_spec s h1 h32 hv, rfl⟩

theorem fixed_kmer_encode_outcome_witness :
    ((∃ e, kmer_in (bytesOf "AXGT") = .error e ∧ e.kind = some .InvalidSymbol)
        ↔ ¬ ValidBases (bytesOf "AXGT")) ∧
      (ValidBases (bytesOf "AXGT") → ∃ v, kmer_in (bytesOf "AXGT") = .ok v ∧
        v.length = (bytesOf "AXGT").length) :=
  (fixed_kmer_encode_outcome (bytesOf "AXGT")).2.2.1 (by decide) (by decide)

theorem toInt32_cases (n : Nat) (h : n ≤ 2 ^ 32) :
    (toInt32 (n : Int) ≤ 0 ∨ toInt32 (n : Int) > 32) ↔ (n = 0 ∨ 32 < n) := by
  unfold toInt32; omega

/-- The outcomes of `qkmer_in` where `int len = strlen(str)` loses nothing
(a C string of at most `2 ^ 32` characters): the length error exactly when the
text has 0 or more than 32 characters; for 1 to 32 characters the
invalid-symbol error exactly when some character is outside the 15 IUPAC
symbols in either case, and otherwise success with the length of the text. -/
theorem qkmer_in_outcome (s : List Nat) (hcs : IsCString s) (hlen : s.length ≤ 2 ^ 32) :
    ((∃ e, qkmer_in s = .error e ∧ e.kind = some .LengthOutOfRange)
        ↔ (s.length = 0 ∨ 32 < s.length)) ∧
    (1 ≤ s.length → s.length ≤ 32 →
      ((∃ e, qkmer_in s = .error e ∧ e.kind = some .InvalidSymbol) ↔ ¬ ValidIupac s) ∧
      (ValidIupac s → ∃ v, qkmer_in s = .ok v ∧ v.length = s.length)) ∧
    (∀ c, 0 < c → ¬ IsIupac c → nucleotide_to_bits c = .error (.qkmerInvalidNucleotide c)) := by
  refine ⟨⟨?_, ?_⟩, ?_, fun c h0 h => nucleotide_to_bits_outside h h0⟩
  · rintro ⟨e, he, hk⟩
    by_contra hin
    have h1 : 1 ≤ s.length := by omega
    have h32 : s.length ≤ 32 := by omega
    by_cases hv : ValidIupac s
    · rw [qkmer_in_spec s h1 h32 hv] at he
      cases he
    · obtain ⟨i, c, _, herr⟩ := qkmer_in_invalid s h1 h32 hcs hv
      rw [herr] at he
      cases he
      cases hk
  · intro h
    have h' := (toInt32_cases s.length hlen).mpr h
    exact ⟨.qkmerLength, by simp only [qkmer_in, h', if_true], rfl⟩
  · intro h1 h32
    constructor
    · constructor
      · rintro ⟨e, he, -⟩ hv
        rw [qkmer_in_spec s h1 h32 hv] at he
        cases he
      · intro hv
        obtain ⟨i, c, _, herr⟩ := qkmer_in_invalid s h1 h32 hcs hv
        exact ⟨_, herr, rfl⟩
    · intro hv
      exact ⟨_, qkmer_in_spec s h1 h32 hv, rfl⟩

/-- C10 (amended): on a text of 1 to 32 characters with a character outside
its table (for `qkmer_in`, a C string), `kmer_in` and `qkmer_in` raise the
invalid-symbol error at the first such character and the message prints that
character, in upper case for `kmer_in` and as given for `qkmer_in`; neither
message carries a position.  For "AXGT" both print `X`. -/
theorem invalid_symbol_report (s : List Nat) (h1 : 1 ≤ s.length)
    (h32 : s.length ≤ 32) :
    (¬ ValidBases s → ∃ i c e, FirstOutside IsBase s i c ∧ kmer_in s = .error e ∧
        e.kind = some .InvalidSymbol ∧ e.character = some (toupper c) ∧ e.position = none) ∧
    (IsCString s → ¬ ValidIupac s → ∃ i c e, FirstOutside IsIupac s i c ∧
        qkmer_in s = .error e ∧
        e.kind = some .InvalidSymbol ∧ e.character = some c ∧ e.position = none) ∧
    kmer_in (bytesOf "AXGT") = .error (.kmerInvalidNucleotide 88) ∧
    qkmer_in (bytesOf "AXGT") = .error (.qkmerInvalidNucleotide 88) := by
  refine ⟨?_, ?_, by decide, by decide⟩
  · intro hv
    obtain ⟨i, c, hfo, herr⟩ := kmer_in_invalid s h1 h32 hv
    exact ⟨i, c, _, hfo, herr, rfl, rfl, rfl⟩
  · intro hcs hv
    obtain ⟨i, c, hfo, herr⟩ := qkmer_in_invalid s h1 h32 hcs hv
    exact ⟨i, c, _, hfo, herr, rfl, rfl, rfl⟩

theorem invalid_symbol_report_witness :
    (∃ i c e, FirstOutside IsBase (bytesOf "acgu") i c ∧ kmer_in (bytesOf "acgu") = .error e ∧
        e.kind = some .InvalidSymbol ∧ e.character = some (toupper c) ∧ e.position = none) ∧
    (∃ i c e, FirstOutside IsIupac (bytesOf "acgu") i c ∧
        qkmer_in (bytesOf "acgu") = .error e ∧
        e.kind = some .InvalidSymbol ∧ e.character = some c ∧ e.position = none) :=
  ⟨(invalid_symbol_report (bytesOf "acgu") (by decide) (by decide)).1 (by decide),
    (invalid_symbol_report (bytesOf "acgu") (by decide) (by decide)).2.1 (by decide)
      (by decide)⟩

/-- C10 (as stated, refuted): for "AXGT" the errors of `kmer_in` and of
`qkmer_in` print the character `X` and no position, so neither reports the
position 2. -/
theorem error_prints_no_position :
    (∃ e, kmer_in (bytesOf "AXGT") = .error e ∧ e.position ≠ some 2) ∧
    (∃ e, qkmer_in (bytesOf "AXGT") = .error e ∧ e.position ≠ some 2) :=
  ⟨⟨.kmerInvalidNucleotide 88, by decide, by decide⟩,
    ⟨.qkmerInvalidNucleotide 88, by decide, by decide⟩⟩

/-! ## Binary input of the fixed-width types -/

theorem pq_getmsgint64_exact (bs : List Nat) (h : bs.length = 8) :
    pq_getmsgint64 bs = .ok (be_value bs, []) := by
  have := pq_copymsgbytes_append bs [] 8 h
  rw [List.append_nil, show ((8 : Nat) : Int) = 8 from rfl] at this
  simp only [pq_getmsgint64, this]

/-- C11: on a payload of 9 bytes, `kmer_recv` raises the length error exactly
when the first byte is 0 or greater than 32; otherwise it succeeds, the length
being that byte and the value the following 8 bytes read in network order. -/
theorem kmer_recv_outcome (b : Nat) (rest : List Nat) (hrest : rest.length = 8) :
    ((∃ e, kmer_recv (b :: rest) = .error e ∧ e.kind = some .LengthOutOfRange)
        ↔ (b = 0 ∨ 32 < b)) ∧
    (b = 0 ∨ 32 < b → kmer_recv (b :: rest) = .error .kmerRecvLength) ∧
    (¬ (b = 0 ∨ 32 < b) →
      kmer_recv (b :: rest) = .ok { length := b, value := be_value rest }) := by
  have hbad : b = 0 ∨ 32 < b → kmer_recv (b :: rest) = .error .kmerRecvLength := by
    intro h
    have h' : b = 0 ∨ b > 32 := h
    simp only [kmer_recv, pq_getmsgbyte, h', if_true]
  have hgood : ¬ (b = 0 ∨ 32 < b) →
      kmer_recv (b :: rest) = .ok { length := b, value := be_value rest } := by
    intro h
    have h' : ¬ (b = 0 ∨ b > 32) := h
    simp only [kmer_recv, pq_getmsgbyte, h', if_false, pq_getmsgint64_exact rest hrest]
  refine ⟨⟨?_, fun h => ⟨_, hbad h, rfl⟩⟩, hbad, hgood⟩
  rintro ⟨e, he, hk⟩
  by_contra hin
  rw [hgood hin] at he
  cases he

theorem kmer_recv_outcome_witness :
    ((∃ e, kmer_recv (33 :: [0, 0, 0, 0, 0, 0, 0, 1]) = .error e ∧
          e.kind = some .LengthOutOfRange) ↔ ((33 : Nat) = 0 ∨ 32 < 33)) ∧
    ((33 : Nat) = 0 ∨ 32 < 33 →
      kmer_recv (33 :: [0, 0, 0, 0, 0, 0, 0, 1]) = .error .kmerRecvLength) ∧
    (¬ ((33 : Nat) = 0 ∨ 32 < 33) →
      kmer_recv (33 :: [0, 0, 0, 0, 0, 0, 0, 1])
        = .ok { length := 33, value := be_value [0, 0, 0, 0, 0, 0, 0, 1] }) :=
  kmer_recv_outcome 33 [0, 0, 0, 0, 0, 0, 0, 1] (by decide)

/-! ## Bit layouts -/

theorem digits_value_eq_sum (B : Nat) : ∀ ds : List Nat,
    digits_value B ds = ∑ i ∈ Finset.range ds.length, ds.getD i 0 * B ^ (ds.length - 1 - i) := by
  intro ds
  induction ds using List.reverseRecOn with
  | nil => simp [digits_value]
  | append_singleton l a ih =>
    rw [digits_value_append, List.length_append, List.length_singleton, Finset.sum_range_succ,
      ih, Finset.sum_mul]
    congr 1
    · apply Finset.sum_congr rfl
      intro i hi
      have hi' : i < l.length := Finset.mem_range.mp hi
      have e : l.length + 1 - 1 - i = (l.length - 1 - i) + 1 := by omega
      rw [e, pow_succ, Nat.mul_assoc, List.getD_append _ _ _ _ hi']
    · have e : l.length + 1 - 1 - l.length = 0 := by omega
      rw [e, pow_zero, Nat.mul_one, List.getD_append_right _ _ _ _ (Nat.le_refl _)]
      simp

/-- C13: for every valid text `s` of length `n` from 1 to 32, `kmer_in s` has
length `n` and its value is the sum over `i < n` of `code(s[i]) * 4 ^ (n - 1 - i)`:
base `i` is the bit pair at positions `(n - i - 1) * 2` and above, the first
base the most significant one, and the value is below `4 ^ n`.  For "AC" the
result is length 2, value `0b0001`. -/
theorem fixed_kmer_bit_layout (s : List Nat) (h1 : 1 ≤ s.length) (h32 : s.length ≤ 32)
    (hv : ValidBases s) :
    (∃ v, kmer_in s = .ok v ∧ v.length = s.length ∧
      v.value = ∑ i ∈ Finset.range s.length, codeOf (s.getD i 0) * 4 ^ (s.length - 1 - i) ∧
      v.value < 4 ^ s.length ∧
      ∀ i (h : i < s.length), (v.value >>> ((s.length - i - 1) * 2)) &&& 3 = codeOf s[i]) ∧
    (codeOf 65 = 0 ∧ codeOf 67 = 1 ∧ codeOf 71 = 2 ∧ codeOf 84 = 3) ∧
    kmer_in (bytesOf "AC") = .ok { length := 2, value := 0b0001 } := by
  have hd : ∀ d ∈ s.map codeOf, d < 4 := by
    intro d hd
    obtain ⟨c, _, rfl⟩ := List.mem_map.mp hd
    exact codeOf_lt c
  refine ⟨⟨_, kmer_in_spec s h1 h32 hv, rfl, ?_, ?_, ?_⟩, by decide, by decide⟩
  · show digits_value 4 (s.map codeOf) = _
    rw [digits_value_eq_sum, List.length_map]
    apply Finset.sum_congr rfl
    intro i hi
    have hi' : i < s.length := Finset.mem_range.mp hi
    rw [List.getD_eq_getElem?_getD, List.getD_eq_getElem?_getD, List.getElem?_map,
      List.getElem?_eq_getElem hi']
    rfl
  · have := digits_value_lt 4 (s.map codeOf) hd
    rw [List.length_map] at this
    exact this
  · intro i hi
    show (digits_value 4 (s.map codeOf) >>> ((s.length - i - 1) * 2)) &&& 3 = _
    have h3 : (3 : Nat) = 2 ^ 2 - 1 := by norm_num
    have e4 : (2 : Nat) ^ 2 = 4 := by norm_num
    have hdig := digits_value_digit 4 (s.map codeOf) hd i (by simpa using hi)
    simp only [List.length_map, List.getElem_map] at hdig
    rw [Nat.shiftRight_eq_div_pow, Nat.mul_comm, pow_mul, h3, Nat.and_pow_two_sub_one_eq_mod,
      e4, show s.length - i - 1 = s.length - 1 - i by omega, hdig]

theorem fixed_kmer_bit_layout_witness :
    (∃ v, kmer_in (bytesOf "gAttc") = .ok v ∧ v.length = (bytesOf "gAttc").length ∧
      v.value = ∑ i ∈ Finset.range (bytesOf "gAttc").length,
        codeOf ((bytesOf "gAttc").getD i 0) * 4 ^ ((bytesOf "gAttc").length - 1 - i) ∧
      v.value < 4 ^ (bytesOf "gAttc").length ∧
      ∀ i (h : i < (bytesOf "gAttc").length),
        (v.value >>> (((bytesOf "gAttc").length - i - 1) * 2)) &&& 3
          = codeOf (bytesOf "gAttc")[i]) ∧
    (codeOf 65 = 0 ∧ codeOf 67 = 1 ∧ codeOf 71 = 2 ∧ codeOf 84 = 3) ∧
    kmer_in (bytesOf "AC") = .ok { length := 2, value := 0b0001 } :=
  fixed_kmer_bit_layout (bytesOf "gAttc") (by decide) (by decide) (by decide)

theorem aligned_digit_zero (ds : List Nat) (hn : ds.length ≤ 16)
    (j : Nat) (hj : ds.length ≤ j) (hj16 : j < 16) :
    ((digits_value 16 ds * 16 ^ (16 - ds.length)) >>> ((15 - j) * 4)) &&& 0xF = 0 := by
  have hF : (0xF : Nat) = 2 ^ 4 - 1 := by norm_num
  have e16 : (2 : Nat) ^ 4 = 16 := by norm_num
  rw [Nat.shiftRight_eq_div_pow, Nat.mul_comm (15 - j) 4, pow_mul, hF,
    Nat.and_pow_two_sub_one_eq_mod, e16]
  have e : 16 - ds.length = (j - ds.length) + 1 + (15 - j) := by omega
  rw [e, pow_add, ← Nat.mul_assoc, Nat.mul_div_cancel _ (by positivity), pow_succ,
    ← Nat.mul_assoc, Nat.mul_mod_left]

theorem aligned_lt (ds : List Nat) (hd : ∀ d ∈ ds, d < 16) (hn : ds.length ≤ 16) :
    digits_value 16 ds * 16 ^ (16 - ds.length) < 2 ^ 64 := by
  have h1 : digits_value 16 ds * 16 ^ (16 - ds.length) < 16 ^ ds.length * 16 ^ (16 - ds.length) :=
    Nat.mul_lt_mul_of_pos_right (digits_value_lt 16 ds hd) (by positivity)
  have h2 : 16 ^ ds.length * 16 ^ (16 - ds.length) = 2 ^ 64 := by
    rw [← pow_add, show ds.length + (16 - ds.length) = 16 by omega]; norm_num
  omega

/-- The nibbles of the value `qkmer_in` builds from a valid text. -/
theorem qkmer_nibble_spec (s : List Nat) (h32 : s.length ≤ 32) (hv : ValidIupac s)
    (len : Int) (i : Nat) (hi32 : i < 32) :
    nibble
      { length := len,
        high := digits_value 16 ((s.take 16).map bitsOf) * 16 ^ (16 - (s.take 16).length),
        low := digits_value 16 ((s.drop 16).map bitsOf) * 16 ^ (16 - (s.drop 16).length) } i
      = if h : i < s.length then bitsOf s[i] else 0 := by
  unfold nibble
  by_cases c : i < 16
  · simp only [if_pos c]
    by_cases hi : i < s.length
    · rw [dif_pos hi]
      have := aligned_digit ((s.take 16).map bitsOf)
        (bitsOf_lt_of_valid (fun c hc => hv c (List.mem_of_mem_take hc)))
        (by simp) i (by simp; omega)
      simpa using this
    · rw [dif_neg hi]
      have := aligned_digit_zero ((s.take 16).map bitsOf) (by simp) i (by simp; omega) c
      simpa using this
  · simp only [if_neg c]
    by_cases hi : i < s.length
    · rw [dif_pos hi]
      have := aligned_digit ((s.drop 16).map bitsOf)
        (bitsOf_lt_of_valid (fun c hc => hv c (List.mem_of_mem_drop hc)))
        (by simp; omega) (i - 16) (by simp; omega)
      have e : 15 - (i - 16) = 31 - i := by omega
      have e2 : 16 + (i - 16) = i := by omega
      simpa [e, e2] using this
    · rw [dif_neg hi]
      have := aligned_digit_zero ((s.drop 16).map bitsOf) (by simp; omega) (i - 16)
        (by simp; omega) (by omega)
      have e : 15 - (i - 16) = 31 - i := by omega
      simpa [e] using this

/-- C14: for every valid text `s` of length `n` from 1 to 32, `qkmer_in s` has
length `n`; symbol `i < n` is the nibble of `high` at shift `(15 - i) * 4` for
`i < 16` and of `low` at shift `(31 - i) * 4` for `i ≥ 16`; every nibble at an
index from `n` on is zero, and `low` is zero when `n ≤ 16`.  For "N" the
result is length 1, `high = 0b1111 <<< 60`, `low = 0`. -/
theorem ambiguity_kmer_bit_layout (s : List Nat) (h1 : 1 ≤ s.length) (h32 : s.length ≤ 32)
    (hv : ValidIupac s) :
    (∃ v, qkmer_in s = .ok v ∧ v.length = s.length ∧
      v.high < 2 ^ 64 ∧ v.low < 2 ^ 64 ∧
      (∀ i (h : i < s.length), nibble v i = bitsOf s[i]) ∧
      (∀ j, s.length ≤ j → j < 32 → nibble v j = 0) ∧
      (s.length ≤ 16 → v.low = 0)) ∧
    qkmer_in (bytesOf "N") = .ok { length := 1, high := 0b1111 <<< 60, low := 0 } := by
  refine ⟨⟨_, qkmer_in_spec s h1 h32 hv, rfl, ?_, ?_, ?_, ?_, ?_⟩, by decide⟩
  · have := aligned_lt ((s.take 16).map bitsOf)
      (bitsOf_lt_of_valid (fun c hc => hv c (List.mem_of_mem_take hc))) (by simp)
    simpa using this
  · have := aligned_lt ((s.drop 16).map bitsOf)
      (bitsOf_lt_of_valid (fun c hc => hv c (List.mem_of_mem_drop hc))) (by simp; omega)
    simpa using this
  · intro i hi
    rw [qkmer_nibble_spec s h32 hv _ i (by omega), dif_pos hi]
  · intro j hj hj32
    rw [qkmer_nibble_spec s h32 hv _ j hj32, dif_neg (by omega)]
  · intro h16
    have hdnil : s.drop 16 = [] := List.drop_eq_nil_of_le h16
    show digits_value 16 ((s.drop 16).map bitsOf) * _ = 0
    rw [hdnil]
    simp [digits_value]

theorem ambiguity_kmer_bit_layout_witness :
    (∃ v, qkmer_in (bytesOf "acgtRYSWkmbdHVNnA") = .ok v ∧
      v.length = (bytesOf "acgtRYSWkmbdHVNnA").length ∧
      v.high < 2 ^ 64 ∧ v.low < 2 ^ 64 ∧
      (∀ i (h : i < (bytesOf "acgtRYSWkmbdHVNnA").length),
        nibble v i = bitsOf (bytesOf "acgtRYSWkmbdHVNnA")[i]) ∧
      (∀ j, (bytesOf "acgtRYSWkmbdHVNnA").length ≤ j → j < 32 → nibble v j = 0) ∧
      ((bytesOf "acgtRYSWkmbdHVNnA").length ≤ 16 → v.low = 0)) ∧
    qkmer_in (bytesOf "N") = .ok { length := 1, high := 0b1111 <<< 60, low := 0 } :=
  ambiguity_kmer_bit_layout (bytesOf "acgtRYSWkmbdHVNnA") (by decide) (by decide) (by decide)

/-! ## The IUPAC table -/

set_option maxRecDepth 4000 in
/-- C15: `nucleotide_to_bits` maps the 15 IUPAC symbols to 15 pairwise distinct
non-zero 4-bit patterns; bit 0, 1, 2, 3 of the pattern is set exactly when
`A`, `C`, `G`, `T` is a base the symbol stands for, so each pattern is the
bitwise OR of the patterns of those bases (`R` is `0b0101`, `N` is `0b1111`);
`bits_to_nucleotide` is the exact inverse, in both directions. -/
theorem iupac_table :
    iupac_symbols.length = 15 ∧
    (∀ c ∈ iupac_symbols,
      nucleotide_to_bits c = .ok (bitsOf c) ∧ 0 < bitsOf c ∧ bitsOf c < 16 ∧
      (∀ b ∈ [65, 67, 71, 84], (bitsOf c).testBit (base_bit b) = decide (b ∈ iupac_bases c)) ∧
      bitsOf c = (iupac_bases c).foldl (fun acc b => acc ||| bitsOf b) 0 ∧
      bits_to_nucleotide (bitsOf c) = .ok c) ∧
    (iupac_symbols.map bitsOf).Nodup ∧
    (∀ p ∈ List.range' 1 15,
      bits_to_nucleotide p = .ok (symbolOf p) ∧ symbolOf p ∈ iupac_symbols ∧
      nucleotide_to_bits (symbolOf p) = .ok p) ∧
    nucleotide_to_bits 82 = .ok 0b0101 ∧ nucleotide_to_bits 78 = .ok 0b1111 := by
  refine ⟨by decide, by decide, by decide, by decide, by decide, by decide⟩

/-! ## Outcomes of `qkmer_out` -/

theorem bits_to_nucleotide_zero (bits : Nat) (h : bits &&& 0b1111 = 0) :
    bits_to_nucleotide bits = .error (.qkmerInvalidBits bits) := by
  simp [bits_to_nucleotide, h]

theorem bits_to_nucleotide_table : ∀ b < 16,
    (b = 0 → bits_to_nucleotide b = .error (.qkmerInvalidBits b)) ∧
    (0 < b → bits_to_nucleotide b = .ok (symbolOf b) ∧ symbolOf b ∈ iupac_symbols) := by
  decide

theorem nibble_lt (q : QKmer) (i : Nat) : nibble q i < 16 := by
  unfold nibble
  split
  · exact Nat.and_lt_two_pow _ (by norm_num : (0xF : Nat) < 2 ^ 4)
  · exact Nat.and_lt_two_pow _ (by norm_num : (0xF : Nat) < 2 ^ 4)

theorem qkmer_out_loop_step (q : QKmer) (i n : Nat) (hi : i < 32) :
    qkmer_out_loop q i (n + 1) =
      match bits_to_nucleotide (nibble q i) with
      | .error e => .error e
      | .ok ch =>
        match qkmer_out_loop q (i + 1) n with
        | .error e => .error e
        | .ok rest => .ok (ch :: rest) := by
  have h32 : ¬ 32 ≤ i := by omega
  simp only [qkmer_out_loop, h32, if_false, nibble]

/-- When none of the nibbles read is zero, the loop of `qkmer_out` returns the
character of each of them. -/
theorem qkmer_out_loop_ok (q : QKmer) : ∀ n i, i + n ≤ 32 →
    (∀ j, i ≤ j → j < i + n → nibble q j ≠ 0) →
    qkmer_out_loop q i n = .ok ((List.range' i n).map (fun j => symbolOf (nibble q j))) := by
  intro n
  induction n with
  | zero => intro i _ _; rfl
  | succ n ih =>
    intro i hi hnz
    have hb := (bits_to_nucleotide_table (nibble q i) (nibble_lt q i)).2
      (Nat.pos_of_ne_zero (hnz i (Nat.le_refl _) (by omega)))
    rw [qkmer_out_loop_step q i n (by omega), hb.1,
      ih (i + 1) (by omega) (fun j h1 h2 => hnz j (by omega) (by omega))]
    rfl

/-- When one of the nibbles read is zero, the loop of `qkmer_out` raises the
invalid-bit-pattern error. -/
theorem qkmer_out_loop_zero (q : QKmer) : ∀ n i, i + n ≤ 32 →
    (∃ j, i ≤ j ∧ j < i + n ∧ nibble q j = 0) →
    qkmer_out_loop q i n = .error (.qkmerInvalidBits 0) := by
  intro n
  induction n with
  | zero => rintro i _ ⟨j, h1, h2, _⟩; omega
  | succ n ih =>
    rintro i hi ⟨j, h1, h2, hz⟩
    by_cases h0 : nibble q i = 0
    · have hb := (bits_to_nucleotide_table (nibble q i) (nibble_lt q i)).1 h0
      rw [qkmer_out_loop_step q i n (by omega), hb, h0]
    · have hb := (bits_to_nucleotide_table (nibble q i) (nibble_lt q i)).2
        (Nat.pos_of_ne_zero h0)
      have hj : i + 1 ≤ j := by
        rcases Nat.eq_or_lt_of_le h1 with h | h
        · rw [← h] at hz; exact absurd hz h0
        · exact h
      rw [qkmer_out_loop_step q i n (by omega), hb.1,
        ih (i + 1) (by omega) ⟨j, hj, by omega, hz⟩]

theorem qkmer_out_nonzero (q : QKmer) (h1 : 1 ≤ q.length) (h32 : q.length ≤ 32)
    (hall : ∀ i, i < q.length.toNat → nibble q i ≠ 0) :
    qkmer_out q = .ok ((List.range' 0 q.length.toNat).map (fun j => symbolOf (nibble q j))) := by
  rw [qkmer_out_of_nonneg q (by omega) (by omega)]
  exact qkmer_out_loop_ok q q.length.toNat 0 (by omega) (fun j _ hj => hall j (by omega))

theorem qkmer_out_zero (q : QKmer) (h1 : 1 ≤ q.length) (h32 : q.length ≤ 32)
    (hz : ∃ i, i < q.length.toNat ∧ nibble q i = 0) :
    qkmer_out q = .error (.qkmerInvalidBits 0) := by
  obtain ⟨i, hi, hz⟩ := hz
  rw [qkmer_out_of_nonneg q (by omega) (by omega)]
  exact qkmer_out_loop_zero q q.length.toNat 0 (by omega) ⟨i, Nat.zero_le _, by omega, hz⟩

/-- C16: for every `QKmer` with a length from 1 to 32, whatever its two words,
`qkmer_out` raises the corrupt-data error exactly when one of the first
`length` nibbles is zero; a zero nibble is never given a character (`N` or
other); when none is zero the result has exactly `length` characters, each
the upper-case IUPAC symbol of its nibble. -/
theorem qkmer_out_outcome (q : QKmer) (h1 : 1 ≤ q.length) (h32 : q.length ≤ 32) :
    ((∃ e, qkmer_out q = .error e ∧ e.kind = some .CorruptData)
        ↔ ∃ i, i < q.length.toNat ∧ nibble q i = 0) ∧
    ((∀ i, i < q.length.toNat → nibble q i ≠ 0) →
      ∃ str, qkmer_out q = .ok str ∧ str.length = q.length.toNat ∧
        (∀ c ∈ str, c ∈ iupac_symbols) ∧
        ∀ i (h : i < str.length), str[i] = symbolOf (nibble q i)) ∧
    (∀ bits, bits &&& 0b1111 = 0 → bits_to_nucleotide bits = .error (.qkmerInvalidBits bits)) := by
  have hok : (∀ i, i < q.length.toNat → nibble q i ≠ 0) →
      qkmer_out q = .ok ((List.range' 0 q.length.toNat).map (fun j => symbolOf (nibble q j))) :=
    qkmer_out_nonzero q h1 h32
  refine ⟨⟨?_, ?_⟩, ?_, bits_to_nucleotide_zero⟩
  · rintro ⟨e, he, -⟩
    by_contra hno
    have hall : ∀ i, i < q.length.toNat → nibble q i ≠ 0 :=
      fun i hi hz => hno ⟨i, hi, hz⟩
    rw [hok hall] at he
    cases he
  · rintro ⟨i, hi, hz⟩
    exact ⟨_, qkmer_out_zero q h1 h32 ⟨i, hi, hz⟩, rfl⟩
  · intro hall
    refine ⟨_, hok hall, by simp, ?_, ?_⟩
    · intro c hc
      obtain ⟨j, hj, rfl⟩ := List.mem_map.mp hc
      have hj' : j < q.length.toNat := by
        have := List.mem_range'_1.mp hj
        omega
      exact ((bits_to_nucleotide_table (nibble q j) (nibble_lt q j)).2
        (Nat.pos_of_ne_zero (hall j hj'))).2
    · intro i hi
      simp

theorem qkmer_out_outcome_witness :
    ((∃ e, qkmer_out { length := 2, high := 15 * 2 ^ 60, low := 0 } = .error e ∧
          e.kind = some .CorruptData)
        ↔ ∃ i, i < (2 : Int).toNat ∧ nibble { length := 2, high := 15 * 2 ^ 60, low := 0 } i = 0) ∧
    ((∀ i, i < (2 : Int).toNat → nibble { length := 2, high := 15 * 2 ^ 60, low := 0 } i ≠ 0) →
      ∃ str, qkmer_out { length := 2, high := 15 * 2 ^ 60, low := 0 } = .ok str ∧
        str.length = (2 : Int).toNat ∧
        (∀ c ∈ str, c ∈ iupac_symbols) ∧
        ∀ i (h : i < str.length),
          str[i] = symbolOf (nibble { length := 2, high := 15 * 2 ^ 60, low := 0 } i)) ∧
    (∀ bits, bits &&& 0b1111 = 0 → bits_to_nucleotide bits = .error (.qkmerInvalidBits bits)) :=
  qkmer_out_outcome { length := 2, high := 15 * 2 ^ 60, low := 0 } (by decide) (by decide)

/-! ## Case-insensitivity -/

theorem toupper_toupper (c : Nat) : toupper (toupper c) = toupper c := by
  unfold toupper
  split_ifs <;> omega

theorem toupper_tolower (c : Nat) : toupper (tolower c) = toupper c := by
  unfold toupper tolower
  split_ifs <;> omega

theorem compress_nucleotides_loop_map (f : Nat → Nat) (hf : ∀ c, toupper (f c) = toupper c) :
    ∀ (s : List Nat) (i : Nat) (data : List Nat),
      compress_nucleotides_loop (s.map f) i data = compress_nucleotides_loop s i data := by
  intro s
  induction s with
  | nil => intro i data; rfl
  | cons ch rest ih =>
    intro i data
    simp only [List.map_cons, compress_nucleotides_loop, hf ch]
    cases nucleotide_code (toupper ch) with
    | none => rfl
    | some code =>
      cases data[i / 4]? with
      | none => rfl
      | some b => exact ih _ _

theorem dna_in_map (f : Nat → Nat) (hf : ∀ c, toupper (f c) = toupper c) (s : List Nat) :
    dna_in (s.map f) = dna_in s := by
  simp only [dna_in, compress_nucleotides, List.length_map, compress_nucleotides_loop_map f hf]

theorem compress_kmer_loop_map (f : Nat → Nat) (hf : ∀ c, toupper (f c) = toupper c) :
    ∀ (s : List Nat) (r : Nat),
      compress_kmer_loop (s.map f) r = compress_kmer_loop s r := by
  intro s
  induction s with
  | nil => intro r; rfl
  | cons ch rest ih =>
    intro r
    simp only [List.map_cons, compress_kmer_loop, hf ch]
    cases nucleotide_code (toupper ch) with
    | none => rfl
    | some code => exact ih _

theorem kmer_in_map (f : Nat → Nat) (hf : ∀ c, toupper (f c) = toupper c) (s : List Nat) :
    kmer_in (s.map f) = kmer_in s := by
  simp only [kmer_in, compress_kmer, List.length_map, ← List.map_take,
    compress_kmer_loop_map f hf]

theorem okOr_ite (p : Prop) [Decidable p] (e : PgError) (a : Nat) (x : Except PgError Nat)
    (y : Option Nat) (h : x = okOr e y) :
    (if p then .ok a else x) = okOr e (if p then some a else y) := by
  by_cases hp : p
  · rw [if_pos hp, if_pos hp]; rfl
  · rw [if_neg hp, if_neg hp]; exact h

theorem nucleotide_to_bits_eq (c : Nat) :
    nucleotide_to_bits c = okOr (.qkmerInvalidNucleotide c) (iupac_code (toupper c)) := by
  unfold nucleotide_to_bits iupac_code
  generalize toupper c = u
  repeat apply okOr_ite
  rfl

theorem nucleotide_to_bits_map (f : Nat → Nat) (hf : ∀ c, toupper (f c) = toupper c)
    (c b : Nat) (h : nucleotide_to_bits c = .ok b) : nucleotide_to_bits (f c) = .ok b := by
  rw [nucleotide_to_bits_eq] at h ⊢
  rw [hf c]
  cases hu : iupac_code (toupper c) with
  | none => rw [hu] at h; cases h
  | some b' => rw [hu] at h; exact h

theorem qkmer_in_loop_map (f : Nat → Nat) (hf : ∀ c, toupper (f c) = toupper c) :
    ∀ (s : List Nat) (i high low : Nat) (r : Nat × Nat),
      qkmer_in_loop s i high low = .ok r → qkmer_in_loop (s.map f) i high low = .ok r := by
  intro s
  induction s with
  | nil => intro i high low r h; exact h
  | cons ch rest ih =>
    intro i high low r h
    simp only [List.map_cons, qkmer_in_loop] at h ⊢
    cases hb : nucleotide_to_bits ch with
    | error e => rw [hb] at h; cases h
    | ok bits =>
      rw [hb] at h
      rw [nucleotide_to_bits_map f hf ch bits hb]
      by_cases hi : i < 16
      · simp only [hi, if_true] at h ⊢
        exact ih _ _ _ _ h
      · simp only [hi, if_false] at h ⊢
        exact ih _ _ _ _ h

theorem qkmer_in_map (f : Nat → Nat) (hf : ∀ c, toupper (f c) = toupper c) (s : List Nat)
    (v : QKmer) (h : qkmer_in s = .ok v) : qkmer_in (s.map f) = .ok v := by
  simp only [qkmer_in, List.length_map, ← List.map_take] at h ⊢
  by_cases hl : toInt32 (s.length : Int) ≤ 0 ∨ toInt32 (s.length : Int) > 32
  · rw [if_pos hl] at h; cases h
  · rw [if_neg hl] at h ⊢
    cases hloop : qkmer_in_loop (s.take (toInt32 (s.length : Int)).toNat) 0 0 0 with
    | error e => rw [hloop] at h; cases h
    | ok r =>
      rw [hloop] at h
      rw [qkmer_in_loop_map f hf _ 0 0 0 r hloop]
      exact h

/-- C17: for each of the three input functions and every text it accepts,
the text in lower case and the text in upper case are accepted too and give
the same value; "acgt" and "ACGT" give the same value in all three. -/
theorem case_insensitive (s : List Nat) :
    (∀ v, dna_in s = .ok v →
      dna_in (s.map tolower) = .ok v ∧ dna_in (s.map toupper) = .ok v) ∧
    (∀ v, kmer_in s = .ok v →
      kmer_in (s.map tolower) = .ok v ∧ kmer_in (s.map toupper) = .ok v) ∧
    (∀ v, qkmer_in s = .ok v →
      qkmer_in (s.map tolower) = .ok v ∧ qkmer_in (s.map toupper) = .ok v) ∧
    dna_in (bytesOf "acgt") = dna_in (bytesOf "ACGT") ∧
    kmer_in (bytesOf "acgt") = kmer_in (bytesOf "ACGT") ∧
    qkmer_in (bytesOf "acgt") = qkmer_in (bytesOf "ACGT") := by
  refine ⟨?_, ?_, ?_, by decide, by decide, by decide⟩
  · intro v h
    rw [dna_in_map tolower toupper_tolower, dna_in_map toupper toupper_toupper]
    exact ⟨h, h⟩
  · intro v h
    rw [kmer_in_map tolower toupper_tolower, kmer_in_map toupper toupper_toupper]
    exact ⟨h, h⟩
  · intro v h
    exact ⟨qkmer_in_map tolower toupper_tolower s v h, qkmer_in_map toupper toupper_toupper s v h⟩

theorem case_insensitive_witness :
    (dna_in ((bytesOf "gAtN").map tolower) = dna_in ((bytesOf "gatn").map toupper)) ∧
    (qkmer_in ((bytesOf "gAtN").map tolower)
        = .ok { length := 4, high := 4 * 2 ^ 60 + 2 ^ 56 + 8 * 2 ^ 52 + 15 * 2 ^ 48, low := 0 } ∧
      qkmer_in ((bytesOf "gAtN").map toupper)
        = .ok { length := 4, high := 4 * 2 ^ 60 + 2 ^ 56 + 8 * 2 ^ 52 + 15 * 2 ^ 48, low := 0 }) :=
  ⟨by decide,
    (case_insensitive (bytesOf "gAtN")).2.2.1
      { length := 4, high := 4 * 2 ^ 60 + 2 ^ 56 + 8 * 2 ^ 52 + 15 * 2 ^ 48, low := 0 }
      (by decide)⟩

/-! ## Binary input of `qkmer` and `dna` -/

theorem pq_copymsgbytes_ok (msg : List Nat) (n : Nat) (h : n ≤ msg.length) :
    pq_copymsgbytes msg (n : Int) = .ok (msg.take n, msg.drop n) := by
  have hn : ¬ ((n : Int) < 0 ∨ (n : Int) > (msg.length : Int)) := by omega
  simp only [pq_copymsgbytes, hn, if_false, Int.toNat_ofNat]

/-- What `qkmer_recv` returns on a payload of 18 bytes: the three fields as read,
with no check. -/
theorem qkmer_recv_spec (payload : List Nat) (hlen : payload.length = 18) :
    qkmer_recv payload = .ok
      { length := toInt16 (be_value (payload.take 2)),
        high := be_value ((payload.drop 2).take 8),
        low := be_value (((payload.drop 2).drop 8).take 8) } := by
  have h1 := pq_copymsgbytes_ok payload 2 (by omega)
  have h2 := pq_copymsgbytes_ok (payload.drop 2) 8 (by rw [List.length_drop]; omega)
  have h3 := pq_copymsgbytes_ok ((payload.drop 2).drop 8) 8
    (by rw [List.length_drop, List.length_drop]; omega)
  rw [show ((8 : Nat) : Int) = 8 from rfl] at h2 h3
  simp only [qkmer_recv, pq_getmsgint, pq_getmsgint64, h1, h2, h3]

/-- C18 (amended): `qkmer_recv` performs no validation on a payload of 18 bytes:
it always succeeds and returns the length, `high` and `low` as read.  Running
`qkmer_out` on the value surfaces zero nibbles only: for a length from 1 to 32
it raises the corrupt-data error when one of the first `length` nibbles is
zero, and returns a string when none is, whatever the nibbles from `length`
on; for the length 0 it returns the empty string. -/
theorem qkmer_recv_then_out (payload : List Nat) (hlen : payload.length = 18) :
    ∃ q, qkmer_recv payload = .ok q ∧
      q.length = toInt16 (be_value (payload.take 2)) ∧
      q.high = be_value ((payload.drop 2).take 8) ∧
      q.low = be_value (((payload.drop 2).drop 8).take 8) ∧
      (1 ≤ q.length → q.length ≤ 32 → (∃ i, i < q.length.toNat ∧ nibble q i = 0) →
        ∃ e, qkmer_out q = .error e ∧ e.kind = some .CorruptData) ∧
      (1 ≤ q.length → q.length ≤ 32 → (∀ i, i < q.length.toNat → nibble q i ≠ 0) →
        ∃ str, qkmer_out q = .ok str ∧ str.length = q.length.toNat) ∧
      (q.length = 0 → qkmer_out q = .ok []) := by
  refine ⟨_, qkmer_recv_spec payload hlen, rfl, rfl, rfl, ?_, ?_, ?_⟩
  · intro h1 h32 hz
    exact ⟨_, qkmer_out_zero _ h1 h32 hz, rfl⟩
  · intro h1 h32 hall
    exact ⟨_, qkmer_out_nonzero _ h1 h32 hall, by simp⟩
  · intro h0
    rw [qkmer_out_of_nonneg _ (by omega) (by omega)]
    show qkmer_out_loop _ 0 (Int.toNat _) = _
    rw [Int.toNat_eq_zero.mpr (by omega)]
    rfl

theorem qkmer_recv_then_out_witness :
    ∃ q, qkmer_recv [0, 2, 0x10, 0, 0, 0, 0, 0, 0, 0, 0, 0, 0, 0, 0, 0, 0, 0] = .ok q ∧
      q.length
        = toInt16 (be_value ([0, 2, 0x10, 0, 0, 0, 0, 0, 0, 0, 0, 0, 0, 0, 0, 0, 0, 0].take 2)) ∧
      q.high
        = be_value (([0, 2, 0x10, 0, 0, 0, 0, 0, 0, 0, 0, 0, 0, 0, 0, 0, 0, 0].drop 2).take 8) ∧
      q.low = be_value
        ((([0, 2, 0x10, 0, 0, 0, 0, 0, 0, 0, 0, 0, 0, 0, 0, 0, 0, 0].drop 2).drop 8).take 8) ∧
      (1 ≤ q.length → q.length ≤ 32 → (∃ i, i < q.length.toNat ∧ nibble q i = 0) →
        ∃ e, qkmer_out q = .error e ∧ e.kind = some .CorruptData) ∧
      (1 ≤ q.length → q.length ≤ 32 → (∀ i, i < q.length.toNat → nibble q i ≠ 0) →
        ∃ str, qkmer_out q = .ok str ∧ str.length = q.length.toNat) ∧
      (q.length = 0 → qkmer_out q = .ok []) :=
  qkmer_recv_then_out [0, 2, 0x10, 0, 0, 0, 0, 0, 0, 0, 0, 0, 0, 0, 0, 0, 0, 0] (by decide)

/-- C18 (as stated, refuted): the payload with length 1, `high = 0x11 <<< 56`
and `low = 0` is received; its nibble at index 1, beyond the length, is not
zero, so no text encodes to it, yet `qkmer_out` returns "A".  The payload of 18
zero bytes is received with length 0 and `qkmer_out` returns the empty string. -/
theorem qkmer_out_misses_corruption :
    (qkmer_recv [0, 1, 0x11, 0, 0, 0, 0, 0, 0, 0, 0, 0, 0, 0, 0, 0, 0, 0]
        = .ok { length := 1, high := 0x11 <<< 56, low := 0 } ∧
      nibble { length := 1, high := 0x11 <<< 56, low := 0 } 1 ≠ 0 ∧
      qkmer_out { length := 1, high := 0x11 <<< 56, low := 0 } = .ok (bytesOf "A")) ∧
    (qkmer_recv [0, 0, 0, 0, 0, 0, 0, 0, 0, 0, 0, 0, 0, 0, 0, 0, 0, 0]
        = .ok { length := 0, high := 0, low := 0 } ∧
      qkmer_out { length := 0, high := 0, low := 0 } = .ok []) := by
  refine ⟨⟨by decide, by decide, by decide⟩, by decide, by decide⟩

/-! ## Canonical values of `kmer` -/

theorem digitsOf_succ (B n x : Nat) :
    digitsOf B (n + 1) x = digitsOf B n (x / B) ++ [x % B] := by
  unfold digitsOf
  rw [List.range_succ, List.map_append]
  congr 1
  · apply List.map_congr_left
    intro i hi
    have hi' : i < n := List.mem_range.mp hi
    have e : n + 1 - 1 - i = (n - 1 - i) + 1 := by omega
    rw [e, pow_succ', Nat.div_div_eq_div_mul]
  · simp

theorem digitsOf_length (B n x : Nat) : (digitsOf B n x).length = n := by
  simp [digitsOf]

theorem digits_value_digitsOf (B : Nat) : ∀ n x, digits_value B (digitsOf B n x) = x % B ^ n := by
  intro n
  induction n with
  | zero => intro x; simp [digitsOf, digits_value, Nat.mod_one]
  | succ n ih =>
    intro x
    rw [digitsOf_succ, digits_value_append, ih, pow_succ', Nat.mod_mul]
    ring

theorem code_nucleotide_charOf : ∀ d < 4,
    code_nucleotide d = some (charOf d) ∧ IsUpperBase (charOf d) ∧ codeOf (charOf d) = d := by
  decide

/-- The loop of `kmer_to_string` on a value with a length of at most 32: character
`j` is the one of the base-4 digit of weight `4 ^ (length - 1 - j)`. -/
theorem kmer_to_string_loop_digits (v : Kmer) (h32 : v.length ≤ 32) :
    ∀ m i, i + m = v.length →
      kmer_to_string_loop v i m = .ok
        ((List.range' i m).map (fun j => charOf (v.value / 4 ^ (v.length - 1 - j) % 4))) := by
  intro m
  induction m with
  | zero => intro i _; rfl
  | succ m ih =>
    intro i hi
    have hshift : ((v.length - i - 1) * 2) % 256 = 2 * (v.length - 1 - i) := by omega
    have hlt : ¬ 64 ≤ 2 * (v.length - 1 - i) := by omega
    have h3 : (3 : Nat) = 2 ^ 2 - 1 := by norm_num
    have e4 : (2 : Nat) ^ 2 = 4 := by norm_num
    have hnuc : ((v.value >>> (2 * (v.length - 1 - i))) &&& 3) % 256
        = v.value / 4 ^ (v.length - 1 - i) % 4 := by
      rw [Nat.shiftRight_eq_div_pow, pow_mul, h3, Nat.and_pow_two_sub_one_eq_mod, e4]
      exact Nat.mod_eq_of_lt (by
        have := Nat.mod_lt (v.value / 4 ^ (v.length - 1 - i)) (by decide : 4 > 0)
        omega)
    have hc := (code_nucleotide_charOf _
      (Nat.mod_lt (v.value / 4 ^ (v.length - 1 - i)) (by decide : 4 > 0))).1
    simp only [kmer_to_string_loop, hshift, hlt, if_false, hnuc, hc, ih (i + 1) (by omega),
      List.range'_succ, List.map_cons]

/-- On a well-formed value `kmer_to_string` returns an upper-case text that
`kmer_in` maps back to the value. -/
theorem kmer_in_kmer_to_string (v : Kmer) (hv : v.WellFormed) :
    ∃ s, kmer_to_string v = .ok s ∧ s.length = v.length ∧ (∀ c ∈ s, IsUpperBase c) ∧
      kmer_in s = .ok v := by
  obtain ⟨h1, h32, hval⟩ := hv
  have hdec : kmer_to_string v = .ok ((digitsOf 4 v.length v.value).map charOf) := by
    have := kmer_to_string_loop_digits v h32 v.length 0 (by omega)
    rw [← List.range_eq_range'] at this
    simpa [kmer_to_string, digitsOf, List.map_map] using this
  have hdig : ∀ d ∈ digitsOf 4 v.length v.value, d < 4 := by
    intro d hd
    obtain ⟨i, _, rfl⟩ := List.mem_map.mp hd
    exact Nat.mod_lt _ (by decide)
  have hlen : ((digitsOf 4 v.length v.value).map charOf).length = v.length := by
    rw [List.length_map, digitsOf_length]
  have hup : ∀ c ∈ (digitsOf 4 v.length v.value).map charOf, IsUpperBase c := by
    intro c hc
    obtain ⟨d, hd, rfl⟩ := List.mem_map.mp hc
    exact (code_nucleotide_charOf d (hdig d hd)).2.1
  have hvalid : ValidBases ((digitsOf 4 v.length v.value).map charOf) := by
    intro c hc
    rcases hup c hc with h | h | h | h <;> subst h <;> decide
  have hcodes : ((digitsOf 4 v.length v.value).map charOf).map codeOf
      = digitsOf 4 v.length v.value := by
    rw [List.map_map]
    conv_rhs => rw [← List.map_id (digitsOf 4 v.length v.value)]
    apply List.map_congr_left
    intro d hd
    exact (code_nucleotide_charOf d (hdig d hd)).2.2
  refine ⟨_, hdec, hlen, hup, ?_⟩
  rw [kmer_in_spec _ (by omega) (by omega) hvalid, hlen, hcodes, digits_value_digitsOf,
    Nat.mod_eq_of_lt hval]

theorem toupper_of_upper {c : Nat} (h : IsUpperBase c) : toupper c = c := by
  rcases h with h | h | h | h <;> subst h <;> decide

/-- C20: for every well-formed `Kmer` (length `n` from 1 to 32, value below
`4 ^ n`), `kmer_to_string` returns a text of `n` upper-case bases and `kmer_in`
of that text returns exactly the value; so `kmer_to_string` is injective on
well-formed values, and with the round trip of the upper-case texts of 1 to
32 bases the two functions are mutually inverse bijections. -/
theorem fixed_kmer_canonical (v : Kmer) (hv : v.WellFormed) :
    (∃ s, kmer_to_string v = .ok s ∧ s.length = v.length ∧ (∀ c ∈ s, IsUpperBase c) ∧
      kmer_in s = .ok v) ∧
    (∀ w : Kmer, w.WellFormed → kmer_to_string w = kmer_to_string v → w = v) ∧
    (∀ s : List Nat, 1 ≤ s.length → s.length ≤ 32 → (∀ c ∈ s, IsUpperBase c) →
      ∃ w, kmer_in s = .ok w ∧ w.WellFormed ∧ kmer_to_string w = .ok s) := by
  refine ⟨kmer_in_kmer_to_string v hv, ?_, ?_⟩
  · intro w hw heq
    obtain ⟨s, hs, -, -, hin⟩ := kmer_in_kmer_to_string v hv
    obtain ⟨t, ht, -, -, hin'⟩ := kmer_in_kmer_to_string w hw
    rw [hs, ht] at heq
    have hts : t = s := by simpa using heq
    rw [hts, hin] at hin'
    simpa using hin'.symm
  · intro s h1 h32 hup
    have hvalid : ValidBases s := by
      intro c hc
      rcases hup c hc with h | h | h | h <;> subst h <;> decide
    have hd : ∀ d ∈ s.map codeOf, d < 4 := by
      intro d hd
      obtain ⟨c, _, rfl⟩ := List.mem_map.mp hd
      exact codeOf_lt c
    have hlt := digits_value_lt 4 (s.map codeOf) hd
    rw [List.length_map] at hlt
    have hmap : s.map toupper = s := by
      conv_rhs => rw [← List.map_id s]
      apply List.map_congr_left
      intro c hc
      exact toupper_of_upper (hup c hc)
    refine ⟨_, kmer_in_spec s h1 h32 hvalid, ⟨h1, h32, hlt⟩, ?_⟩
    have := kmer_to_string_loop_spec s h32 hvalid s.length 0 (by omega)
    rw [List.drop_zero, hmap] at this
    exact this

theorem fixed_kmer_canonical_witness :
    (∃ s, kmer_to_string { length := 3, value := 0b011011 } = .ok s ∧
      s.length = 3 ∧ (∀ c ∈ s, IsUpperBase c) ∧
      kmer_in s = .ok { length := 3, value := 0b011011 }) ∧
    (∀ w : Kmer, w.WellFormed →
      kmer_to_string w = kmer_to_string { length := 3, value := 0b011011 } →
      w = { length := 3, value := 0b011011 }) ∧
    (∀ s : List Nat, 1 ≤ s.length → s.length ≤ 32 → (∀ c ∈ s, IsUpperBase c) →
      ∃ w, kmer_in s = .ok w ∧ w.WellFormed ∧ kmer_to_string w = .ok s) :=
  fixed_kmer_canonical { length := 3, value := 0b011011 } (by decide)

/-! ## Negative lengths in `dna_recv` -/

/-- C19 (the code at the failing input): the payload `FF FF FF FF` carries the
length -1; `(len + 3) / 4` is 0, no data byte is read, and `dna_recv` returns
a value of length -1, which violates the invariant of a Sequence.  The same
holds down to the length -6 (`FF FF FF FA`), the division truncating toward
zero. -/
theorem dna_recv_accepts_negative_length :
    dna_recv [0xFF, 0xFF, 0xFF, 0xFF] = .ok { length := -1, data := [] } ∧
    ¬ DNA.Valid { length := -1, data := [] } ∧
    dna_recv [0xFF, 0xFF, 0xFF, 0xFA] = .ok { length := -6, data := [] } ∧
    ¬ DNA.Valid { length := -6, data := [] } := by
  refine ⟨by decide, by decide, by decide, by decide⟩

end NucleotideCodec
